import Mathlib

/-!
Verification of the WorkloadCompactor repository against its specification.

This file gives a shallow embedding, in Lean 4, of the parts of the
WorkloadCompactor C++ sources that the checked claims are about:

* the deterministic network calculus (DNC) curve algebra and per-flow latency
  analyses (src/src/DNC-Library/DNC.cpp), over an idealized model of IEEE
  doubles (exact rationals extended with signed infinities and a NaN value);
* the compactor's incremental re-optimization machinery
  (src/src/DNC-Library/WorkloadCompactor.cpp), with the external GLPK linear
  program solve abstracted as an oracle parameter;
* the admission-control service (src/src/AdmissionController/AdmissionController.cpp);
* the storage scheduler (src/src/NFSEnforcer/scheduler.cpp).

The topology base class (NC.hpp/NC.cpp: Queue/Flow/Client records, addClient,
delClient, calcClientLatency, name lookups) is not present in the source tree;
those definitions are modelled from the specification (spec.md section 4.2 and
4.5) and are marked with a doc comment starting with: Modelled from the spec.
-/

namespace WC

/-!
## An idealized model of IEEE-754 double arithmetic

The DNC library computes with C++ doubles and relies on infinities produced by
division by zero and on comparisons involving them.  We model a double as an
exact rational, positive infinity, negative infinity, or NaN.  Rounding is not
modelled (values stay exact), and zero is unsigned: a zero produced by
subtraction is treated as +0, which agrees with IEEE round-to-nearest for the
expressions appearing in the embedded code.
-/

inductive F where
  | fin (q : ℚ)
  | inf
  | ninf
  | nan
deriving DecidableEq

/-- IEEE addition on the double model. -/
def F.add : F → F → F
  | .nan, _ => .nan
  | .fin _, .nan => .nan
  | .inf, .nan => .nan
  | .ninf, .nan => .nan
  | .fin a, .fin b => .fin (a + b)
  | .fin _, .inf => .inf
  | .fin _, .ninf => .ninf
  | .inf, .fin _ => .inf
  | .inf, .inf => .inf
  | .inf, .ninf => .nan
  | .ninf, .fin _ => .ninf
  | .ninf, .inf => .nan
  | .ninf, .ninf => .ninf

/-- IEEE subtraction on the double model. -/
def F.sub : F → F → F
  | .nan, _ => .nan
  | .fin _, .nan => .nan
  | .inf, .nan => .nan
  | .ninf, .nan => .nan
  | .fin a, .fin b => .fin (a - b)
  | .fin _, .inf => .ninf
  | .fin _, .ninf => .inf
  | .inf, .fin _ => .inf
  | .inf, .inf => .nan
  | .inf, .ninf => .inf
  | .ninf, .fin _ => .ninf
  | .ninf, .inf => .ninf
  | .ninf, .ninf => .nan

/-- IEEE multiplication on the double model (0 times an infinity is NaN). -/
def F.mul : F → F → F
  | .nan, _ => .nan
  | .fin _, .nan => .nan
  | .inf, .nan => .nan
  | .ninf, .nan => .nan
  | .fin a, .fin b => .fin (a * b)
  | .fin a, .inf => if 0 < a then .inf else if a < 0 then .ninf else .nan
  | .fin a, .ninf => if 0 < a then .ninf else if a < 0 then .inf else .nan
  | .inf, .fin b => if 0 < b then .inf else if b < 0 then .ninf else .nan
  | .ninf, .fin b => if 0 < b then .ninf else if b < 0 then .inf else .nan
  | .inf, .inf => .inf
  | .inf, .ninf => .ninf
  | .ninf, .inf => .ninf
  | .ninf, .ninf => .inf

/-- IEEE division on the double model.  Division of a nonzero finite value by
(unsigned) zero yields an infinity of the numerator's sign; 0/0 is NaN. -/
def F.div : F → F → F
  | .nan, _ => .nan
  | .fin _, .nan => .nan
  | .inf, .nan => .nan
  | .ninf, .nan => .nan
  | .fin a, .fin b =>
      if b = 0 then (if 0 < a then .inf else if a < 0 then .ninf else .nan)
      else .fin (a / b)
  | .fin _, .inf => .fin 0
  | .fin _, .ninf => .fin 0
  | .inf, .fin b => if b < 0 then .ninf else .inf
  | .ninf, .fin b => if b < 0 then .inf else .ninf
  | .inf, .inf => .nan
  | .inf, .ninf => .nan
  | .ninf, .inf => .nan
  | .ninf, .ninf => .nan

instance : Add F := ⟨F.add⟩

instance : Sub F := ⟨F.sub⟩

instance : Mul F := ⟨F.mul⟩

instance : Div F := ⟨F.div⟩

/-- IEEE strict comparison: any comparison involving NaN is false. -/
def F.lt : F → F → Bool
  | .fin a, .fin b => decide (a < b)
  | .fin _, .inf => true
  | .ninf, .fin _ => true
  | .ninf, .inf => true
  | _, _ => false

/-- Nonstrict order on doubles, used to state overcommitment (R ≤ r). -/
def F.le (a b : F) : Prop := F.lt a b = true ∨ a = b

instance (a b : F) : Decidable (F.le a b) := by
  unfold F.le
  infer_instance

/-- C++ std::min(a, b), which returns a when b < a is false (also on NaN). -/
def F.cppMin (a b : F) : F := if F.lt b a then b else a

/-!
## Simple curves and the DNC operator algebra

Embedded from src/src/DNC-Library/DNC.hpp (struct definitions) and
src/src/DNC-Library/DNC.cpp lines 271-337 (the operators).
-/

/-- A simple arrival curve: a token-bucket (r, b) pair (DNC.hpp lines 54-58). -/
structure SimpleArrivalCurve where
  r : F
  b : F
deriving DecidableEq

/-- A simple service curve: a rate R with a delay T (DNC.hpp lines 60-64). -/
structure SimpleServiceCurve where
  R : F
  T : F
deriving DecidableEq

/-- DNC.cpp ZeroArrivalCurve (lines 275-281). -/
def ZeroArrivalCurve : SimpleArrivalCurve := ⟨.fin 0, .fin 0⟩

/-- DNC.cpp ConstantServiceCurve (lines 284-290): rate = queue bandwidth, T = 0. -/
def ConstantServiceCurve (bandwidth : F) : SimpleServiceCurve := ⟨bandwidth, .fin 0⟩

/-- DNC.cpp AggregateArrivalCurve (lines 293-299). -/
def AggregateArrivalCurve (A B : SimpleArrivalCurve) : SimpleArrivalCurve :=
  ⟨A.r + B.r, A.b + B.b⟩

/-- DNC.cpp ConvolutionServiceCurve (lines 302-308): R = std::min, T = sum. -/
def ConvolutionServiceCurve (S1 S2 : SimpleServiceCurve) : SimpleServiceCurve :=
  ⟨F.cppMin S1.R S2.R, S1.T + S2.T⟩

/-- DNC.cpp OutputArrivalCurve (lines 312-318). -/
def OutputArrivalCurve (A : SimpleArrivalCurve) (S1 : SimpleServiceCurve) :
    SimpleArrivalCurve :=
  ⟨A.r, A.b + A.r * S1.T⟩

/-- DNC.cpp LeftoverServiceCurve (lines 321-327).  There is no overcommitment
check in the source: the new R may be zero or negative, and T is computed by
dividing by it. -/
def LeftoverServiceCurve (A : SimpleArrivalCurve) (S1 : SimpleServiceCurve) :
    SimpleServiceCurve :=
  let R := S1.R - A.r
  ⟨R, S1.T + (A.b + A.r * S1.T) / R⟩

/-- DNC.cpp DNCLatencyBound (lines 330-337): infinity when A.r > S.R, else
T + b / R. -/
def DNCLatencyBound (A : SimpleArrivalCurve) (S1 : SimpleServiceCurve) : F :=
  if F.lt S1.R A.r then F.inf else S1.T + A.b / S1.R

/-- Claim C2: For all simple arrival curves A = (r_A, b_A), B = (r_B, b_B) and
simple service curves S = (R_S, T_S), T2 = (R_T, T_T) (finite components,
positive service rate for the latency bound): Aggregate(A, B) =
(r_A + r_B, b_A + b_B); Convolve(S, T2) = (min(R_S, R_T), T_S + T_T);
Output(A, S) = (r_A, b_A + r_A * T_S); and LatencyBound(A, S) = T_S + b_A / R_S
when r_A ≤ R_S, and +infinity otherwise. -/
theorem C2_simple_curve_operators (rA bA rB bB RS TS RT TT : ℚ) (hRS : 0 < RS) :
    AggregateArrivalCurve ⟨.fin rA, .fin bA⟩ ⟨.fin rB, .fin bB⟩ =
      ⟨.fin (rA + rB), .fin (bA + bB)⟩ ∧
    ConvolutionServiceCurve ⟨.fin RS, .fin TS⟩ ⟨.fin RT, .fin TT⟩ =
      ⟨.fin (min RS RT), .fin (TS + TT)⟩ ∧
    OutputArrivalCurve ⟨.fin rA, .fin bA⟩ ⟨.fin RS, .fin TS⟩ =
      ⟨.fin rA, .fin (bA + rA * TS)⟩ ∧
    DNCLatencyBound ⟨.fin rA, .fin bA⟩ ⟨.fin RS, .fin TS⟩ =
      (if rA ≤ RS then F.fin (TS + bA / RS) else F.inf) := by
  refine ⟨rfl, ?_, rfl, ?_⟩
  · show SimpleServiceCurve.mk (F.cppMin (.fin RS) (.fin RT)) _ = _
    have hm : F.cppMin (.fin RS) (.fin RT) = .fin (min RS RT) := by
      simp only [F.cppMin, F.lt]
      rcases lt_or_le RT RS with h | h
      · simp [h, min_eq_right h.le]
      · simp [not_lt.mpr h, min_eq_left h]
    rw [hm]
    rfl
  · simp only [DNCLatencyBound, F.lt, decide_eq_true_eq]
    rcases le_or_lt rA RS with h | h
    · have hns : ¬ RS < rA := not_lt.mpr h
      rw [if_neg hns, if_pos h]
      show F.add (.fin TS) (F.div (.fin bA) (.fin RS)) = _
      simp [F.div, hRS.ne', F.add]
    · rw [if_pos h, if_neg (not_le.mpr h)]

/-- Witness for C2 at concrete inputs. -/
theorem C2_simple_curve_operators_witness :
    (0 : ℚ) < 4 ∧
    (AggregateArrivalCurve ⟨.fin 1, .fin 2⟩ ⟨.fin 3, .fin 5⟩ =
       ⟨.fin (1 + 3), .fin (2 + 5)⟩ ∧
     ConvolutionServiceCurve ⟨.fin 4, .fin 1⟩ ⟨.fin 6, .fin 2⟩ =
       ⟨.fin (min 4 6), .fin (1 + 2)⟩ ∧
     OutputArrivalCurve ⟨.fin 1, .fin 2⟩ ⟨.fin 4, .fin 1⟩ =
       ⟨.fin 1, .fin (2 + 1 * 1)⟩ ∧
     DNCLatencyBound ⟨.fin 1, .fin 2⟩ ⟨.fin 4, .fin 1⟩ =
       (if (1 : ℚ) ≤ 4 then F.fin (1 + 2 / 4) else F.inf)) :=
  ⟨by norm_num, C2_simple_curve_operators 1 2 3 5 4 1 6 2 (by norm_num)⟩

/-!
## Piecewise-linear curves and the latency walker

Embedded from src/src/DNC-Library/DNC.hpp (PointSlope, Curve) and
src/src/DNC-Library/DNC.cpp lines 222-269 (calcLatency, calcShaperLatency).
-/

/-- An (x, y) point with a slope (DNC.hpp lines 18-49). -/
structure PointSlope where
  x : F
  y : F
  slope : F
deriving DecidableEq

/-- A piecewise linear curve (DNC.hpp line 52). -/
abbrev Curve := List PointSlope

/-- Out-of-range reads (undefined behavior in the C++) resolve to this point. -/
def junkPoint : PointSlope := ⟨.fin 0, .fin 0, .fin 0⟩

/-- The loop of DNC.cpp calcLatency (lines 222-257).  The fuel argument bounds
the number of loop iterations; each iteration advances arrivalIndex +
serviceIndex by at least one, so fuel = arrival length + service length always
suffices (see calcLatency below). -/
def calcLatencyGo (arrivalCurve serviceCurve : Curve) :
    ℕ → ℕ → ℕ → F → F
  | 0, _, _, maxLatency => maxLatency
  | fuel + 1, arrivalIndex, serviceIndex, maxLatency =>
    if arrivalIndex < arrivalCurve.length ∨ serviceIndex < serviceCurve.length then
      let arrivalY :=
        if arrivalIndex < arrivalCurve.length then
          (arrivalCurve.getD arrivalIndex junkPoint).y
        else F.inf
      let serviceY :=
        if serviceIndex < serviceCurve.length then
          (serviceCurve.getD serviceIndex junkPoint).y
        else F.inf
      if F.lt arrivalY serviceY then
        let arrivalPoint := arrivalCurve.getD arrivalIndex junkPoint
        let servicePoint := serviceCurve.getD (serviceIndex - 1) junkPoint
        let deltaY := arrivalPoint.y - servicePoint.y
        let deltaX := deltaY / servicePoint.slope
        let latency := (servicePoint.x + deltaX) - arrivalPoint.x
        calcLatencyGo arrivalCurve serviceCurve fuel (arrivalIndex + 1) serviceIndex
          (if F.lt maxLatency latency then latency else maxLatency)
      else if F.lt serviceY arrivalY then
        let arrivalPoint := arrivalCurve.getD (arrivalIndex - 1) junkPoint
        let servicePoint := serviceCurve.getD serviceIndex junkPoint
        let deltaY := servicePoint.y - arrivalPoint.y
        let deltaX := deltaY / arrivalPoint.slope
        let latency := servicePoint.x - (arrivalPoint.x + deltaX)
        calcLatencyGo arrivalCurve serviceCurve fuel arrivalIndex (serviceIndex + 1)
          (if F.lt maxLatency latency then latency else maxLatency)
      else
        let arrivalPoint := arrivalCurve.getD arrivalIndex junkPoint
        let servicePoint := serviceCurve.getD serviceIndex junkPoint
        let latency := servicePoint.x - arrivalPoint.x
        calcLatencyGo arrivalCurve serviceCurve fuel (arrivalIndex + 1) (serviceIndex + 1)
          (if F.lt maxLatency latency then latency else maxLatency)
    else maxLatency

/-- DNC.cpp calcLatency (lines 222-257): maximum horizontal distance between
the two piecewise curves, walking vertices in y order. -/
def calcLatency (arrivalCurve serviceCurve : Curve) : F :=
  calcLatencyGo arrivalCurve serviceCurve
    (arrivalCurve.length + serviceCurve.length + 1) 0 0 (.fin 0)

/-- DNC.cpp calcShaperLatency (lines 260-269). -/
def calcShaperLatency (arrivalCurve : Curve) (shaperCurve : SimpleArrivalCurve) : F :=
  calcLatency arrivalCurve
    [⟨.fin 0, .fin 0, .inf⟩, ⟨.fin 0, shaperCurve.b, shaperCurve.r⟩]

/-!
## The DNC topology view and the two latency analyses

The analyses read flows and queues through getter functions; this mirrors the
NC object graph (the NC base class sources are not in the tree; the record
shapes below follow DNC.hpp lines 66-70 and the spec's data model).  Each
analysis additionally returns the list of (A, S) argument pairs passed to
LeftoverServiceCurve, so that claims about "an overcommitted leftover taken
during the analysis" can be stated; the log is a pure observation and does not
alter any computed value.
-/

/-- DNC-specific flow record (DNC.hpp lines 66-70 plus the NC Flow fields the
analyses read: queue path, priority, ignoreLatency). -/
structure DNCFlowRec where
  queueIds : List ℕ
  priority : ℕ
  arrivalCurve : Curve
  shaperCurve : SimpleArrivalCurve
  ignoreLatency : Bool
deriving DecidableEq

/-- Queue record as read by the analyses: bandwidth and the (flowId, hop index)
pairs passing through the queue. -/
structure DNCQueueRec where
  bandwidth : F
  flows : List (ℕ × ℕ)
deriving DecidableEq

/-- Read-only topology view used by the DNC analyses. -/
structure DNCEnv where
  getQueue : ℕ → DNCQueueRec
  getFlow : ℕ → DNCFlowRec

/-- Log of arguments passed to LeftoverServiceCurve during an analysis. -/
abbrev LeftoverLog := List (SimpleArrivalCurve × SimpleServiceCurve)

/-- Requests of the mutually recursive pair calcArrivalCurveAtQueue /
calcServiceCurveAtQueue (DNC.cpp lines 340-366), merged into one fuel-indexed
evaluator so the definition is structurally recursive (the C++ recursion can
diverge on cyclic topologies; fuel bounds the recursion depth). -/
inductive DNCReq where
  | arr (flowId index : ℕ)
  | svc (flowId index : ℕ)
  | fold (flowId priority : ℕ) (acc : SimpleServiceCurve) (log : LeftoverLog)
      (rest : List (ℕ × ℕ))

/-- Results of the evaluator: an arrival curve or a service curve, with the
leftover log accumulated during the computation. -/
inductive DNCOut where
  | arrOut (A : SimpleArrivalCurve) (log : LeftoverLog)
  | svcOut (S1 : SimpleServiceCurve) (log : LeftoverLog)

/-- Fuel-indexed evaluator for DNC.cpp lines 340-366.  A .arr request embeds
calcArrivalCurveAtQueue; a .svc request embeds calcServiceCurveAtQueue, whose
loop over the queue's flows is the .fold request. -/
def dncEval (env : DNCEnv) : ℕ → DNCReq → Option DNCOut
  | 0, _ => none
  | fuel + 1, .arr flowId index =>
    if index = 0 then some (.arrOut (env.getFlow flowId).shaperCurve [])
    else
      match dncEval env fuel (.arr flowId (index - 1)),
            dncEval env fuel (.svc flowId (index - 1)) with
      | some (.arrOut prevArrival log1), some (.svcOut prevService log2) =>
        some (.arrOut (OutputArrivalCurve prevArrival prevService) (log1 ++ log2))
      | _, _ => none
  | fuel + 1, .svc flowId index =>
    let f := env.getFlow flowId
    let q := env.getQueue (f.queueIds.getD index 0)
    dncEval env fuel
      (.fold flowId f.priority (ConstantServiceCurve q.bandwidth) [] q.flows)
  | _ + 1, .fold _ _ acc log [] => some (.svcOut acc log)
  | fuel + 1, .fold flowId priority acc log (fi :: rest) =>
    let g := env.getFlow fi.1
    if g.priority ≤ priority ∧ fi.1 ≠ flowId then
      match dncEval env fuel (.arr fi.1 fi.2) with
      | some (.arrOut arrivalCurve glog) =>
        dncEval env fuel
          (.fold flowId priority (LeftoverServiceCurve arrivalCurve acc)
            (log ++ glog ++ [(arrivalCurve, acc)]) rest)
      | _ => none
    else dncEval env fuel (.fold flowId priority acc log rest)

/-- DNC::calcServiceCurveAtQueue (DNC.cpp lines 352-366), with log. -/
def calcServiceCurveAtQueue (env : DNCEnv) (fuel flowId index : ℕ) :
    Option (SimpleServiceCurve × LeftoverLog) :=
  match dncEval env fuel (.svc flowId index) with
  | some (.svcOut S1 log) => some (S1, log)
  | _ => none

/-- The per-hop loop of DNC::hopByHopAnalysis (DNC.cpp lines 367-379). -/
def hopByHopGo (env : DNCEnv) (dncFuel flowId : ℕ) :
    ℕ → ℕ → SimpleArrivalCurve → F → LeftoverLog → Option (F × LeftoverLog)
  | 0, _, _, _, _ => none
  | loopFuel + 1, index, arrivalCurve, latency, log =>
    if index < (env.getFlow flowId).queueIds.length then
      match calcServiceCurveAtQueue env dncFuel flowId index with
      | some (serviceCurve, slog) =>
        hopByHopGo env dncFuel flowId loopFuel (index + 1)
          (OutputArrivalCurve arrivalCurve serviceCurve)
          (latency + DNCLatencyBound arrivalCurve serviceCurve) (log ++ slog)
      | none => none
    else some (latency, log)

/-- DNC::hopByHopAnalysis (DNC.cpp lines 367-379). -/
def hopByHopAnalysis (env : DNCEnv) (dncFuel flowId : ℕ) :
    Option (F × LeftoverLog) :=
  hopByHopGo env dncFuel flowId ((env.getFlow flowId).queueIds.length + 1) 0
    (env.getFlow flowId).shaperCurve (.fin 0) []

/-- DNC::calcFlowLatency (DNC.cpp lines 496-521) under the hop-by-hop
algorithm: ignoreLatency short-circuits to 0, otherwise the analysis result
plus the shaper latency. -/
def calcFlowLatencyHopByHop (env : DNCEnv) (dncFuel flowId : ℕ) :
    Option (F × LeftoverLog) :=
  let f := env.getFlow flowId
  if f.ignoreLatency then some (.fin 0, [])
  else
    match hopByHopAnalysis env dncFuel flowId with
    | some (latency, log) =>
      some (latency + calcShaperLatency f.arrivalCurve f.shaperCurve, log)
    | none => none

/-- The loop over the first (and only) queue's flows in the one-queue branch of
DNC::aggregateAnalysisTwoHop (DNC.cpp lines 395-408): aggregate equal-priority
shapers into the arrival curve, subtract strictly-higher-priority shapers from
the service curve via leftover. -/
def aggregateOneHopFold (env : DNCEnv) (priority : ℕ) :
    SimpleArrivalCurve → SimpleServiceCurve → LeftoverLog → List (ℕ × ℕ) →
    SimpleArrivalCurve × SimpleServiceCurve × LeftoverLog
  | arrivalCurve, serviceCurve, log, [] => (arrivalCurve, serviceCurve, log)
  | arrivalCurve, serviceCurve, log, fi :: rest =>
    let f := env.getFlow fi.1
    if f.priority ≤ priority then
      if f.priority = priority then
        aggregateOneHopFold env priority
          (AggregateArrivalCurve f.shaperCurve arrivalCurve) serviceCurve log rest
      else
        aggregateOneHopFold env priority arrivalCurve
          (LeftoverServiceCurve f.shaperCurve serviceCurve)
          (log ++ [(f.shaperCurve, serviceCurve)]) rest
    else aggregateOneHopFold env priority arrivalCurve serviceCurve log rest

/-- The one-queue branch of DNC::aggregateAnalysisTwoHop (DNC.cpp lines
386-410).  The two-queue branch (lines 411-491) is not embedded; none of the
settled claims depends on it, and this function answers none for other path
lengths. -/
def aggregateAnalysisOneHop (env : DNCEnv) (flowId : ℕ) :
    Option (F × LeftoverLog) :=
  let f := env.getFlow flowId
  match f.queueIds with
  | [firstQueueId] =>
    let q := env.getQueue firstQueueId
    let out := aggregateOneHopFold env f.priority ZeroArrivalCurve
      (ConstantServiceCurve q.bandwidth) [] q.flows
    some (DNCLatencyBound out.1 out.2.1, out.2.2)
  | _ => none

/-- DNC::calcFlowLatency (DNC.cpp lines 496-521) under the aggregate algorithm
for a one-queue flow. -/
def calcFlowLatencyAggOneHop (env : DNCEnv) (flowId : ℕ) :
    Option (F × LeftoverLog) :=
  let f := env.getFlow flowId
  if f.ignoreLatency then some (.fin 0, [])
  else
    match aggregateAnalysisOneHop env flowId with
    | some (latency, log) =>
      some (latency + calcShaperLatency f.arrivalCurve f.shaperCurve, log)
    | none => none

/-!
## Claim C3: overcommitted leftovers and infinite latency
-/

/-- A double that is either finite or +infinity (never NaN or -infinity). -/
def IsFinOrInf (a : F) : Prop := (∃ q : ℚ, a = .fin q) ∨ a = .inf

lemma F.lt_true_right {a b : F} (h : F.lt a b = true) : IsFinOrInf b := by
  cases a <;> cases b <;> simp [F.lt] at h <;> simp [IsFinOrInf]

lemma F.add_inf_of_finOrInf {x : F} (h : IsFinOrInf x) : F.inf + x = F.inf := by
  rcases h with ⟨q, rfl⟩ | rfl <;> rfl

lemma maxUpdate_finOrInf {m v : F} (h : IsFinOrInf m) :
    IsFinOrInf (if F.lt m v then v else m) := by
  by_cases hv : F.lt m v = true
  · rw [if_pos hv]
    exact F.lt_true_right hv
  · rw [if_neg (by simpa using hv)]
    exact h

lemma calcLatencyGo_finOrInf (a s : Curve) :
    ∀ (fuel ai si : ℕ) (m : F), IsFinOrInf m →
      IsFinOrInf (calcLatencyGo a s fuel ai si m) := by
  intro fuel
  induction fuel with
  | zero => intro ai si m hm; exact hm
  | succ n ih =>
    intro ai si m hm
    rw [calcLatencyGo]
    dsimp only
    repeat' split
    all_goals first
      | exact hm
      | exact ih _ _ _ hm
      | (rename_i hlt; exact ih _ _ _ (F.lt_true_right hlt))

lemma calcShaperLatency_finOrInf (c : Curve) (sh : SimpleArrivalCurve) :
    IsFinOrInf (calcShaperLatency c sh) :=
  calcLatencyGo_finOrInf _ _ _ _ _ _ (Or.inl ⟨0, rfl⟩)

lemma F.le_fin_iff {a b : ℚ} : F.le (.fin a) (.fin b) ↔ a ≤ b := by
  constructor
  · rintro (h | h)
    · simp [F.lt] at h
      exact h.le
    · injection h with h
      exact h.le
  · intro h
    rcases lt_or_eq_of_le h with h | h
    · exact Or.inl (by simp [F.lt, h])
    · exact Or.inr (by rw [h])

lemma F.fin_sub_fin (a b : ℚ) : F.fin a - F.fin b = F.fin (a - b) := rfl

lemma F.fin_add_fin (a b : ℚ) : F.fin a + F.fin b = F.fin (a + b) := rfl

/-- Service-curve invariant of the one-hop aggregate fold: if every shaper at
the queue is finite with nonnegative rate, the leftover rate stays finite and
only decreases, and any overcommitted leftover recorded in the log forces the
final leftover rate to be nonpositive. -/
lemma aggFold_service (env : DNCEnv) (pri : ℕ) :
    ∀ (rest : List (ℕ × ℕ)),
      (∀ p ∈ rest, ∃ rg bg : ℚ, 0 ≤ rg ∧
        (env.getFlow p.1).shaperCurve = ⟨.fin rg, .fin bg⟩) →
      ∀ (arr : SimpleArrivalCurve) (svc : SimpleServiceCurve) (log : LeftoverLog)
        (RS : ℚ), svc.R = .fin RS →
      ∃ RS2 : ℚ,
        (aggregateOneHopFold env pri arr svc log rest).2.1.R = .fin RS2 ∧
        RS2 ≤ RS ∧
        ∀ e ∈ (aggregateOneHopFold env pri arr svc log rest).2.2,
          e ∈ log ∨ (F.le e.2.R e.1.r → RS2 ≤ 0) := by
  intro rest
  induction rest with
  | nil =>
    intro _ arr svc log RS hR
    exact ⟨RS, hR, le_refl _, fun e he => Or.inl he⟩
  | cons fi rest ih =>
    intro hfin arr svc log RS hR
    obtain ⟨rg, bg, hrg, hsh⟩ := hfin fi (List.mem_cons_self fi rest)
    have hfin2 : ∀ p ∈ rest, ∃ rg bg : ℚ, 0 ≤ rg ∧
        (env.getFlow p.1).shaperCurve = ⟨.fin rg, .fin bg⟩ :=
      fun p hp => hfin p (List.mem_cons_of_mem fi hp)
    rw [aggregateOneHopFold]
    by_cases h1 : (env.getFlow fi.1).priority ≤ pri
    · rw [if_pos h1]
      by_cases h2 : (env.getFlow fi.1).priority = pri
      · rw [if_pos h2]
        exact ih hfin2 _ svc log RS hR
      · rw [if_neg h2]
        have hR2 : (LeftoverServiceCurve (env.getFlow fi.1).shaperCurve svc).R =
            .fin (RS - rg) := by
          simp only [LeftoverServiceCurve, hsh, hR]
          exact F.fin_sub_fin RS rg
        obtain ⟨RS2, hRS2, hle, hlog⟩ := ih hfin2 arr _ _ (RS - rg) hR2
        refine ⟨RS2, hRS2, le_trans hle (by linarith), fun e he => ?_⟩
        rcases hlog e he with he2 | he2
        · rcases List.mem_append.mp he2 with he3 | he3
          · exact Or.inl he3
          · right
            intro hover
            have he4 : e = ((env.getFlow fi.1).shaperCurve, svc) := by
              simpa using he3
            rw [he4] at hover
            simp only [hsh, hR] at hover
            have : RS ≤ rg := F.le_fin_iff.mp hover
            linarith
        · exact Or.inr he2
    · rw [if_neg h1]
      exact ih hfin2 _ svc log RS hR

/-- Arrival-curve invariant of the one-hop aggregate fold: the aggregated
arrival rate stays finite and never decreases. -/
lemma aggFold_arrival (env : DNCEnv) (pri : ℕ) :
    ∀ (rest : List (ℕ × ℕ)),
      (∀ p ∈ rest, ∃ rg bg : ℚ, 0 ≤ rg ∧
        (env.getFlow p.1).shaperCurve = ⟨.fin rg, .fin bg⟩) →
      ∀ (arr : SimpleArrivalCurve) (svc : SimpleServiceCurve) (log : LeftoverLog)
        (ra : ℚ), arr.r = .fin ra →
      ∃ ra2 : ℚ,
        (aggregateOneHopFold env pri arr svc log rest).1.r = .fin ra2 ∧ ra ≤ ra2 := by
  intro rest
  induction rest with
  | nil =>
    intro _ arr svc log ra hr
    exact ⟨ra, hr, le_refl _⟩
  | cons fi rest ih =>
    intro hfin arr svc log ra hr
    obtain ⟨rg, bg, hrg, hsh⟩ := hfin fi (List.mem_cons_self fi rest)
    have hfin2 : ∀ p ∈ rest, ∃ rg bg : ℚ, 0 ≤ rg ∧
        (env.getFlow p.1).shaperCurve = ⟨.fin rg, .fin bg⟩ :=
      fun p hp => hfin p (List.mem_cons_of_mem fi hp)
    rw [aggregateOneHopFold]
    by_cases h1 : (env.getFlow fi.1).priority ≤ pri
    · rw [if_pos h1]
      by_cases h2 : (env.getFlow fi.1).priority = pri
      · rw [if_pos h2]
        have hr2 : (AggregateArrivalCurve (env.getFlow fi.1).shaperCurve arr).r =
            .fin (rg + ra) := by
          simp only [AggregateArrivalCurve, hsh, hr]
          exact F.fin_add_fin rg ra
        obtain ⟨ra2, hra2, hle⟩ := ih hfin2 _ svc log (rg + ra) hr2
        exact ⟨ra2, hra2, by linarith⟩
      · rw [if_neg h2]
        exact ih hfin2 _ _ _ ra hr
    · rw [if_neg h1]
      exact ih hfin2 _ _ _ ra hr

/-- If some equal-priority flow at the queue has a strictly positive shaper
rate, the aggregated arrival rate of the one-hop fold is strictly positive. -/
lemma aggFold_arrival_pos (env : DNCEnv) (pri : ℕ) :
    ∀ (rest : List (ℕ × ℕ)),
      (∀ p ∈ rest, ∃ rg bg : ℚ, 0 ≤ rg ∧
        (env.getFlow p.1).shaperCurve = ⟨.fin rg, .fin bg⟩) →
      ∀ (arr : SimpleArrivalCurve) (svc : SimpleServiceCurve) (log : LeftoverLog)
        (ra : ℚ), arr.r = .fin ra → 0 ≤ ra →
      (∃ p ∈ rest, (env.getFlow p.1).priority = pri ∧
        ∃ rg bg : ℚ, 0 < rg ∧ (env.getFlow p.1).shaperCurve = ⟨.fin rg, .fin bg⟩) →
      ∃ ra2 : ℚ,
        (aggregateOneHopFold env pri arr svc log rest).1.r = .fin ra2 ∧ 0 < ra2 := by
  intro rest
  induction rest with
  | nil =>
    intro _ _ _ _ _ _ _ hpos
    obtain ⟨p, hp, _⟩ := hpos
    exact absurd hp (List.not_mem_nil p)
  | cons fi rest ih =>
    intro hfin arr svc log ra hr hra hpos
    obtain ⟨rg, bg, hrg, hsh⟩ := hfin fi (List.mem_cons_self fi rest)
    have hfin2 : ∀ p ∈ rest, ∃ rg bg : ℚ, 0 ≤ rg ∧
        (env.getFlow p.1).shaperCurve = ⟨.fin rg, .fin bg⟩ :=
      fun p hp => hfin p (List.mem_cons_of_mem fi hp)
    obtain ⟨p, hp, hppri, rp, bp, hrp, hpsh⟩ := hpos
    rw [aggregateOneHopFold]
    rcases List.mem_cons.mp hp with rfl | hp2
    · rw [if_pos (le_of_eq hppri), if_pos hppri]
      have hr2 : (AggregateArrivalCurve (env.getFlow p.1).shaperCurve arr).r =
          .fin (rp + ra) := by
        simp only [AggregateArrivalCurve, hpsh, hr]
        exact F.fin_add_fin rp ra
      obtain ⟨ra2, hra2, hle⟩ := aggFold_arrival env pri rest hfin2 _ svc log (rp + ra) hr2
      exact ⟨ra2, hra2, by linarith⟩
    · by_cases h1 : (env.getFlow fi.1).priority ≤ pri
      · rw [if_pos h1]
        by_cases h2 : (env.getFlow fi.1).priority = pri
        · rw [if_pos h2]
          have hr2 : (AggregateArrivalCurve (env.getFlow fi.1).shaperCurve arr).r =
              .fin (rg + ra) := by
            simp only [AggregateArrivalCurve, hsh, hr]
            exact F.fin_add_fin rg ra
          exact ih hfin2 _ svc log (rg + ra) hr2 (by linarith)
            ⟨p, hp2, hppri, rp, bp, hrp, hpsh⟩
        · rw [if_neg h2]
          exact ih hfin2 _ _ _ ra hr hra ⟨p, hp2, hppri, rp, bp, hrp, hpsh⟩
      · rw [if_neg h1]
        exact ih hfin2 _ _ _ ra hr hra ⟨p, hp2, hppri, rp, bp, hrp, hpsh⟩

/-- Claim C3, amended: under the single-queue aggregate analysis, when every
shaper at the queue is finite with nonnegative rate, the queue bandwidth is
finite, and some equal-priority flow at the queue (e.g. the analysed flow
itself) has a strictly positive shaper rate, then an overcommitted leftover
(R_S ≤ r_A at the point the leftover is taken) anywhere during the analysis
forces the flow's computed latency to be +infinity.  (As claimed, for every
flow and either algorithm, the statement is false: see the counterexample,
where the overcommitted leftover occurs inside an interfering flow's output
computation of the hop-by-hop analysis and the subject flow's latency stays
finite.) -/
theorem C3_overcommit_onehop (env : DNCEnv) (flowId firstQueueId : ℕ) (B : ℚ)
    (lat : F) (log : LeftoverLog)
    (hpath : (env.getFlow flowId).queueIds = [firstQueueId])
    (hB : (env.getQueue firstQueueId).bandwidth = .fin B)
    (hfin : ∀ p ∈ (env.getQueue firstQueueId).flows, ∃ rg bg : ℚ, 0 ≤ rg ∧
        (env.getFlow p.1).shaperCurve = ⟨.fin rg, .fin bg⟩)
    (hpos : ∃ p ∈ (env.getQueue firstQueueId).flows,
        (env.getFlow p.1).priority = (env.getFlow flowId).priority ∧
        ∃ rg bg : ℚ, 0 < rg ∧ (env.getFlow p.1).shaperCurve = ⟨.fin rg, .fin bg⟩)
    (hrun : calcFlowLatencyAggOneHop env flowId = some (lat, log))
    (hover : ∃ e ∈ log, F.le e.2.R e.1.r) :
    lat = F.inf := by
  by_cases hi : (env.getFlow flowId).ignoreLatency
  · simp only [calcFlowLatencyAggOneHop, hi, if_true, Option.some.injEq,
      Prod.mk.injEq] at hrun
    obtain ⟨e, he, _⟩ := hover
    rw [← hrun.2] at he
    exact absurd he (List.not_mem_nil e)
  · set out := aggregateOneHopFold env (env.getFlow flowId).priority
      ZeroArrivalCurve
      (ConstantServiceCurve (env.getQueue firstQueueId).bandwidth) []
      (env.getQueue firstQueueId).flows with hout
    have heq : calcFlowLatencyAggOneHop env flowId =
        some (DNCLatencyBound out.1 out.2.1 +
          calcShaperLatency (env.getFlow flowId).arrivalCurve
            (env.getFlow flowId).shaperCurve, out.2.2) := by
      unfold calcFlowLatencyAggOneHop aggregateAnalysisOneHop
      dsimp only
      rw [if_neg hi, hpath]
    rw [heq] at hrun
    simp only [Option.some.injEq, Prod.mk.injEq] at hrun
    obtain ⟨hlat, hlog⟩ := hrun
    obtain ⟨RS2, hRS2, _, hlogprop⟩ := aggFold_service env
      (env.getFlow flowId).priority (env.getQueue firstQueueId).flows hfin
      ZeroArrivalCurve (ConstantServiceCurve (env.getQueue firstQueueId).bandwidth)
      [] B hB
    obtain ⟨ra2, hra2, hra2pos⟩ := aggFold_arrival_pos env
      (env.getFlow flowId).priority (env.getQueue firstQueueId).flows hfin
      ZeroArrivalCurve (ConstantServiceCurve (env.getQueue firstQueueId).bandwidth)
      [] 0 rfl (le_refl 0) hpos
    obtain ⟨e, he, heover⟩ := hover
    rw [← hlog] at he
    have hRS2np : RS2 ≤ 0 := by
      rcases hlogprop e he with he2 | he2
      · exact absurd he2 (List.not_mem_nil e)
      · exact he2 heover
    have hbound : DNCLatencyBound out.1 out.2.1 = F.inf := by
      rw [DNCLatencyBound, if_pos]
      rw [hRS2, hra2]
      simp [F.lt]
      linarith
    rw [← hlat, hbound]
    exact F.add_inf_of_finOrInf (calcShaperLatency_finOrInf _ _)

/-- Concrete topology witnessing the amended claim C3: one queue of bandwidth
1; the analysed flow 1 (priority 2, shaper (1/2, 1)); a higher-priority flow 2
whose shaper (1, 1) consumes the whole bandwidth, so its leftover is
overcommitted (R_S = 1 ≤ r_A = 1). -/
def envC3w : DNCEnv where
  getQueue := fun qid =>
    if qid = 0 then ⟨.fin 1, [(1, 0), (2, 0)]⟩ else ⟨.fin 0, []⟩
  getFlow := fun fid =>
    if fid = 1 then
      ⟨[0], 2, [⟨.fin 0, .fin 0, .inf⟩, ⟨.fin 0, .fin 1, .fin (1/2)⟩],
        ⟨.fin (1/2), .fin 1⟩, false⟩
    else if fid = 2 then ⟨[0], 1, [], ⟨.fin 1, .fin 1⟩, false⟩
    else ⟨[], 0, [], ⟨.fin 0, .fin 0⟩, true⟩

/-- Witness for the amended claim C3 at the concrete topology envC3w. -/
theorem C3_overcommit_onehop_witness :
    calcFlowLatencyAggOneHop envC3w 1 =
      some (F.inf, [(⟨.fin 1, .fin 1⟩, ⟨.fin 1, .fin 0⟩)]) ∧ F.inf = F.inf := by
  have hrun : calcFlowLatencyAggOneHop envC3w 1 =
      some (F.inf, [(⟨.fin 1, .fin 1⟩, ⟨.fin 1, .fin 0⟩)]) := by
    with_unfolding_all rfl
  refine ⟨hrun, ?_⟩
  refine C3_overcommit_onehop envC3w 1 0 1 F.inf
    [(⟨.fin 1, .fin 1⟩, ⟨.fin 1, .fin 0⟩)] rfl rfl ?_ ?_ hrun ?_
  · intro p hp
    rcases List.mem_cons.mp hp with rfl | hp2
    case _ =>
      exact ⟨1/2, 1, by norm_num, by with_unfolding_all rfl⟩
    rcases List.mem_cons.mp hp2 with rfl | hp3
    case _ =>
      exact ⟨1, 1, by norm_num, by with_unfolding_all rfl⟩
    exact absurd hp3 (List.not_mem_nil p)
  · exact ⟨(1, 0), List.mem_cons_self _ _, by with_unfolding_all rfl,
      1/2, 1, by norm_num, by with_unfolding_all rfl⟩
  · exact ⟨(⟨.fin 1, .fin 1⟩, ⟨.fin 1, .fin 0⟩), List.mem_singleton.mpr rfl,
      Or.inr rfl⟩

/-- Concrete topology refuting claim C3 as stated, under the hop-by-hop
analysis: flow 3's shaper (2, 1) overcommits queue 1 (bandwidth 1), which is
taken as a leftover while computing interfering flow 2's output onto queue 2;
the resulting negative-delay service curve merely shrinks flow 2's output
burst, and the analysed flow 1's latency comes out finite (6/5). -/
def envC3 : DNCEnv where
  getQueue := fun qid =>
    if qid = 1 then ⟨.fin 1, [(3, 0), (2, 0)]⟩
    else if qid = 2 then ⟨.fin 1, [(2, 1), (1, 0)]⟩
    else ⟨.fin 0, []⟩
  getFlow := fun fid =>
    if fid = 1 then
      ⟨[2], 5, [⟨.fin 0, .fin 0, .inf⟩, ⟨.fin 0, .fin (1/10), .fin (1/10)⟩],
        ⟨.fin (1/10), .fin (1/10)⟩, false⟩
    else if fid = 2 then ⟨[1, 2], 1, [], ⟨.fin (1/2), .fin 1⟩, false⟩
    else if fid = 3 then ⟨[1], 1, [], ⟨.fin 2, .fin 1⟩, false⟩
    else ⟨[], 0, [], ⟨.fin 0, .fin 0⟩, true⟩

/-- Counterexample to claim C3 as stated: in envC3 the hop-by-hop analysis of
flow 1 takes a leftover of A = (2, 1) against S = (1, 0) - overcommitted, since
R_S = 1 ≤ 2 = r_A (first log entry) - yet the flow's computed latency is the
finite value 6/5, not +infinity. -/
theorem C3_counterexample :
    calcFlowLatencyHopByHop envC3 10 1 =
      some (F.fin (6/5),
        [(⟨.fin 2, .fin 1⟩, ⟨.fin 1, .fin 0⟩),
         (⟨.fin (1/2), .fin (1/2)⟩, ⟨.fin 1, .fin 0⟩)]) ∧
    F.le (F.fin 1) (F.fin 2) ∧ F.fin (6/5) ≠ F.inf := by
  refine ⟨by with_unfolding_all rfl, Or.inl (by with_unfolding_all rfl), ?_⟩
  intro h
  exact F.noConfusion h

/-!
## The storage scheduler (src/src/NFSEnforcer/scheduler.cpp)

Per-tenant state and the pure parts of the scheduler the claims are about:
client creation, the pairwise arbitration comparator, token-bucket update, and
job charging.  Times are uint64 ticks modelled as naturals (subtraction is
truncated; the code guards or asserts the relevant orderings), doubles are
exact rationals.  The C++ keeps three parallel arrays rateLimitRates,
rateLimitBursts, rateLimitTokens of common length rateLimitLength; they are
modelled as one list of (rate, burst, token) triples.
-/

/-- Modelled from the spec: the tick-to-seconds conversion of common/time.hpp
(not in the tree); ticks are nanoseconds.  All claims are insensitive to the
constant. -/
def ConvertTimeToSeconds (t : ℕ) : ℚ := (t : ℚ) / 1000000000

/-- The scheduler-relevant fields of a queued NFS job (scheduler.hpp lines
22-113). -/
structure SJob where
  immediate : Bool
  isRead : Bool
  isWrite : Bool
  requestSize : ℤ
  arrivalTime : ℕ
  jobSize : ℚ
  rateLimitObeyed : Bool
  priority : ℕ
deriving DecidableEq

/-- Head-of-empty-queue reads (undefined behavior in C++) resolve to this. -/
def junkJob : SJob := ⟨false, false, false, 0, 0, 0, false, 0⟩

/-- Per-tenant scheduler state (scheduler.hpp lines 116-128). -/
structure SClient where
  pendingJobs : List SJob
  priority : ℕ
  rateLimits : List (ℚ × ℚ × ℚ)
  rateLimitUpdateTime : ℕ
  rateLimitObeyed : Bool
  occupancy : ℕ
  lastOccupancyTime : ℕ
  getOccupancyTime : ℕ
deriving DecidableEq

/-- Association-list lookup (models std::map find). -/
def alookup {α : Type} (l : List (ℕ × α)) (k : ℕ) : Option α :=
  (l.find? (fun p => p.1 == k)).map Prod.snd

/-- Association-list pointwise update of an existing key. -/
def aupdate {α : Type} (l : List (ℕ × α)) (k : ℕ) (v : α) : List (ℕ × α) :=
  l.map (fun p => if p.1 = k then (k, v) else p)

/-- The FCFS fallback of Scheduler::CompareClient (scheduler.cpp lines
226-233). -/
def CompareFCFS (pJob1 pJob2 : SJob) : ℤ :=
  if pJob1.arrivalTime < pJob2.arrivalTime then 1
  else if pJob2.arrivalTime < pJob1.arrivalTime then -1
  else 0

/-- The rate-limit / priority section of Scheduler::CompareClient
(scheduler.cpp lines 209-224), falling through to FCFS. -/
def CompareLimits (c1 c2 : SClient) (pJob1 pJob2 : SJob) : ℤ :=
  if c1.rateLimitObeyed then
    if c2.rateLimitObeyed then
      if c1.priority < c2.priority then 1
      else if c2.priority < c1.priority then -1
      else CompareFCFS pJob1 pJob2
    else 1
  else if c2.rateLimitObeyed then -1
  else CompareFCFS pJob1 pJob2

/-- The immediate-flag section of Scheduler::CompareClient (scheduler.cpp
lines 198-207), falling through to the rate-limit section. -/
def CompareImmediate (c1 c2 : SClient) (pJob1 pJob2 : SJob) : ℤ :=
  if pJob1.immediate then
    if ¬ pJob2.immediate then 1 else CompareLimits c1 c2 pJob1 pJob2
  else if pJob2.immediate then -1
  else CompareLimits c1 c2 pJob1 pJob2

/-- Scheduler::CompareClient (scheduler.cpp lines 185-234): 1 prefers c1, -1
prefers c2, 0 is a tie. -/
def CompareClient (c1 c2 : SClient) : ℤ :=
  if c1.pendingJobs.isEmpty then
    if c2.pendingJobs.isEmpty then 0 else -1
  else if c2.pendingJobs.isEmpty then 1
  else CompareImmediate c1 c2 (c1.pendingJobs.headD junkJob)
    (c2.pendingJobs.headD junkJob)

/-- Scheduler::UpdateTokens (scheduler.cpp lines 238-270): refill is performed
only when the queue is non-empty and the rateLimitObeyed flag is clear; first
the capped refill up to the empty-to-nonempty timestamp, then the uncapped
refill up to now, setting rateLimitObeyed iff every bucket covers the head
job's size.  GetTime() is passed in as the parameter now. -/
def UpdateTokens (c : SClient) (now : ℕ) : SClient :=
  if c.pendingJobs.isEmpty then c
  else
    let pJob := c.pendingJobs.headD junkJob
    if c.rateLimitObeyed then c
    else
      let c1 :=
        if c.rateLimitUpdateTime < c.lastOccupancyTime then
          let elapsedTime :=
            ConvertTimeToSeconds (c.lastOccupancyTime - c.rateLimitUpdateTime)
          { c with
            rateLimits := c.rateLimits.map (fun l =>
              let tok := l.2.2 + elapsedTime * l.1
              (l.1, l.2.1, if l.2.1 < tok then l.2.1 else tok)),
            rateLimitUpdateTime := c.lastOccupancyTime }
        else c
      let elapsedTime2 := ConvertTimeToSeconds (now - c1.rateLimitUpdateTime)
      let newLimits := c1.rateLimits.map (fun l => (l.1, l.2.1, l.2.2 + elapsedTime2 * l.1))
      { c1 with
        rateLimits := newLimits,
        rateLimitUpdateTime := now,
        rateLimitObeyed := newLimits.all (fun l => decide (pJob.jobSize ≤ l.2.2)) }

/-- Scheduler::RemoveJob (scheduler.cpp lines 297-323): pop the head job,
update occupancy on nonempty-to-empty, stamp the job with the tenant's
rateLimitObeyed flag, subtract the job's work estimate from every token
flooring at 0, and clear the rateLimitObeyed flag. -/
def RemoveJob (c : SClient) (now : ℕ) : SJob × SClient :=
  let pJob := c.pendingJobs.headD junkJob
  let rest := c.pendingJobs.tail
  let occupancy2 :=
    if rest.isEmpty then c.occupancy + (now - c.lastOccupancyTime) else c.occupancy
  ({ pJob with rateLimitObeyed := c.rateLimitObeyed },
   { c with
     pendingJobs := rest,
     occupancy := occupancy2,
     rateLimits := c.rateLimits.map (fun l =>
       let tok := l.2.2 - pJob.jobSize
       (l.1, l.2.1, if tok < 0 then 0 else tok)),
     rateLimitObeyed := false })

/-- The fresh-client record created by Scheduler::GetClient (scheduler.cpp
lines 23-44): priority 0, no rate-limit buckets, occupancy clocks set to now. -/
def defaultSClient (now : ℕ) : SClient :=
  { pendingJobs := [], priority := 0, rateLimits := [], rateLimitUpdateTime := 0,
    rateLimitObeyed := false, occupancy := 0, lastOccupancyTime := now,
    getOccupancyTime := now }

/-- Scheduler::GetClient (scheduler.cpp lines 23-44): look the tenant up by
source address, silently creating it with the default record if absent. -/
def GetClient (clients : List (ℕ × SClient)) (addr now : ℕ) :
    SClient × List (ℕ × SClient) :=
  match alookup clients addr with
  | some c => (c, clients)
  | none => (defaultSClient now, clients ++ [(addr, defaultSClient now)])

/-- Scheduler::UpdateClient (scheduler.cpp lines 47-68): get-or-create, then
overwrite priority and replace the buckets (tokens initialized to the bursts),
clearing rateLimitObeyed. -/
def UpdateClient (clients : List (ℕ × SClient)) (addr now priority : ℕ)
    (rates bursts : List ℚ) : List (ℕ × SClient) :=
  let rc := GetClient clients addr now
  aupdate rc.2 addr
    { rc.1 with
      priority := priority,
      rateLimits := (rates.zip bursts).map (fun p => (p.1, p.2, p.2)),
      rateLimitObeyed := false }

/-- Scheduler::GetOccupancy (scheduler.cpp lines 71-89): get-or-create, report
the occupancy fraction since the previous call, and reset the counters.  The
uint64 subtraction occupancy -= occupancyTime is truncated at 0 here (the C++
wraps modulo 2^64 when a partial period was added); no claim depends on it. -/
def GetOccupancy (clients : List (ℕ × SClient)) (addr now : ℕ) :
    ℚ × List (ℕ × SClient) :=
  let rc := GetClient clients addr now
  let c := rc.1
  let occupancyTime :=
    c.occupancy + (if ¬ c.pendingJobs.isEmpty then now - c.lastOccupancyTime else 0)
  ((occupancyTime : ℚ) / ((now - c.getOccupancyTime : ℕ) : ℚ),
   aupdate rc.2 addr
     { c with occupancy := c.occupancy - occupancyTime, getOccupancyTime := now })

/-- Scheduler::GetNumPendingJobs (scheduler.cpp lines 92-101). -/
def GetNumPendingJobs (clients : List (ℕ × SClient)) (addr now : ℕ) :
    ℕ × List (ℕ × SClient) :=
  let rc := GetClient clients addr now
  (rc.1.pendingJobs.length, rc.2)

/-- Scheduler::SubmitJob / Scheduler::AddJob (scheduler.cpp lines 104-112 and
274-293): get-or-create, stamp the arrival time, record the empty-to-nonempty
timestamp, and append the job to the tenant FIFO.  The job's work estimate
(EstimateJobSize) is carried in the job record. -/
def SubmitJob (clients : List (ℕ × SClient)) (addr now : ℕ) (pJob : SJob) :
    List (ℕ × SClient) :=
  let rc := GetClient clients addr now
  let c := rc.1
  aupdate rc.2 addr
    { c with
      lastOccupancyTime := if c.pendingJobs.isEmpty then now else c.lastOccupancyTime,
      pendingJobs := c.pendingJobs ++ [{ pJob with arrivalTime := now }] }

/-- Claim C7: the storage scheduler's pairwise comparison applies exactly the
lexicographic order: (1) non-empty queue beats empty (empty/empty ties); (2)
immediate head job beats non-immediate; (3) within-rate-limits beats out, with
the smaller priority number winning when both are within limits and priorities
ignored when both are out; (4) remaining ties break FCFS on head-job arrival
time. -/
theorem C7_compare_client (c1 c2 : SClient) :
    (c1.pendingJobs = [] → c2.pendingJobs = [] → CompareClient c1 c2 = 0) ∧
    (c1.pendingJobs ≠ [] → c2.pendingJobs = [] → CompareClient c1 c2 = 1) ∧
    (c1.pendingJobs = [] → c2.pendingJobs ≠ [] → CompareClient c1 c2 = -1) ∧
    (c1.pendingJobs ≠ [] → c2.pendingJobs ≠ [] →
      ((c1.pendingJobs.headD junkJob).immediate = true →
        (c2.pendingJobs.headD junkJob).immediate = false → CompareClient c1 c2 = 1) ∧
      ((c1.pendingJobs.headD junkJob).immediate = false →
        (c2.pendingJobs.headD junkJob).immediate = true → CompareClient c1 c2 = -1) ∧
      ((c1.pendingJobs.headD junkJob).immediate = (c2.pendingJobs.headD junkJob).immediate →
        (c1.rateLimitObeyed = true → c2.rateLimitObeyed = false →
          CompareClient c1 c2 = 1) ∧
        (c1.rateLimitObeyed = false → c2.rateLimitObeyed = true →
          CompareClient c1 c2 = -1) ∧
        (c1.rateLimitObeyed = true → c2.rateLimitObeyed = true →
          (c1.priority < c2.priority → CompareClient c1 c2 = 1) ∧
          (c2.priority < c1.priority → CompareClient c1 c2 = -1) ∧
          (c1.priority = c2.priority → CompareClient c1 c2 =
            CompareFCFS (c1.pendingJobs.headD junkJob) (c2.pendingJobs.headD junkJob))) ∧
        (c1.rateLimitObeyed = false → c2.rateLimitObeyed = false →
          CompareClient c1 c2 =
            CompareFCFS (c1.pendingJobs.headD junkJob) (c2.pendingJobs.headD junkJob)))) ∧
    (∀ pJob1 pJob2 : SJob,
      (pJob1.arrivalTime < pJob2.arrivalTime → CompareFCFS pJob1 pJob2 = 1) ∧
      (pJob2.arrivalTime < pJob1.arrivalTime → CompareFCFS pJob1 pJob2 = -1) ∧
      (pJob1.arrivalTime = pJob2.arrivalTime → CompareFCFS pJob1 pJob2 = 0)) := by
  refine ⟨?_, ?_, ?_, ?_, ?_⟩
  · intro h1 h2
    simp [CompareClient, h1, h2]
  · intro h1 h2
    simp [CompareClient, h1, h2]
  · intro h1 h2
    simp [CompareClient, h1, h2]
  · intro h1 h2
    have e1 : c1.pendingJobs.isEmpty = false := by
      simpa [List.isEmpty_iff] using h1
    have e2 : c2.pendingJobs.isEmpty = false := by
      simpa [List.isEmpty_iff] using h2
    have hcc : CompareClient c1 c2 =
        CompareImmediate c1 c2 (c1.pendingJobs.headD junkJob)
          (c2.pendingJobs.headD junkJob) := by
      simp [CompareClient, e1, e2]
    generalize hg1 : c1.pendingJobs.headD junkJob = j1 at hcc ⊢
    generalize hg2 : c2.pendingJobs.headD junkJob = j2 at hcc ⊢
    refine ⟨?_, ?_, ?_⟩
    · intro hi1 hi2
      simp [hcc, CompareImmediate, hi1, hi2]
    · intro hi1 hi2
      simp [hcc, CompareImmediate, hi1, hi2]
    · intro hi
      have himm : CompareClient c1 c2 = CompareLimits c1 c2 j1 j2 := by
        rcases Bool.eq_false_or_eq_true j1.immediate with hb | hb <;>
          · have hb2 := hi ▸ hb
            simp [hcc, CompareImmediate, hb, hb2]
      refine ⟨?_, ?_, ?_, ?_⟩
      · intro ho1 ho2
        simp [himm, CompareLimits, ho1, ho2]
      · intro ho1 ho2
        simp [himm, CompareLimits, ho1, ho2]
      · intro ho1 ho2
        refine ⟨?_, ?_, ?_⟩
        · intro hp
          simp [himm, CompareLimits, ho1, ho2, hp]
        · intro hp
          simp [himm, CompareLimits, ho1, ho2, hp, Nat.lt_asymm hp]
        · intro hp
          simp [himm, CompareLimits, ho1, ho2, hp]
      · intro ho1 ho2
        simp [himm, CompareLimits, ho1, ho2]
  · intro pJob1 pJob2
    refine ⟨?_, ?_, ?_⟩
    · intro h
      simp [CompareFCFS, h]
    · intro h
      simp [CompareFCFS, h, Nat.lt_asymm h]
    · intro h
      simp [CompareFCFS, h]

/-- Witness for C7: a tenant with a pending job beats one with an empty queue. -/
theorem C7_compare_client_witness :
    CompareClient
      { pendingJobs := [junkJob], priority := 3, rateLimits := [],
        rateLimitUpdateTime := 0, rateLimitObeyed := false, occupancy := 0,
        lastOccupancyTime := 0, getOccupancyTime := 0 }
      { pendingJobs := [], priority := 0, rateLimits := [],
        rateLimitUpdateTime := 0, rateLimitObeyed := true, occupancy := 0,
        lastOccupancyTime := 0, getOccupancyTime := 0 } = 1 :=
  (C7_compare_client _ _).2.1 (by simp) rfl

/-!
## Claims C8 and C10
-/

/-- The refill described by claim C8's words: refill at rate_k from the last
update up to the empty-to-nonempty timestamp, capping the token at burst_k;
then refill without cap from max(last update, empty-to-nonempty) to now. -/
def specRefillTokens (c : SClient) (now : ℕ) : List (ℚ × ℚ × ℚ) :=
  c.rateLimits.map (fun l =>
    let tok1 :=
      if c.rateLimitUpdateTime < c.lastOccupancyTime then
        min l.2.1
          (l.2.2 + ConvertTimeToSeconds (c.lastOccupancyTime - c.rateLimitUpdateTime) * l.1)
      else l.2.2
    (l.1, l.2.1,
      tok1 + ConvertTimeToSeconds (now - max c.rateLimitUpdateTime c.lastOccupancyTime) * l.1))

lemma cppCap_eq_min (b x : ℚ) : (if b < x then b else x) = min b x := by
  rcases lt_trichotomy b x with h | h | h
  · rw [if_pos h, min_eq_left h.le]
  · rw [h, if_neg (lt_irrefl x), min_self]
  · rw [if_neg (not_lt.mpr h.le), min_eq_right h.le]

/-- Claim C8, amended: the token refill happens only for a tenant whose
rateLimitObeyed flag is clear (it has not been classified as within limits
since its last dispatch or parameter update); for such a tenant with a
non-empty queue, UpdateTokens performs exactly the two-phase refill of the
claim, and classifies the tenant as within limits iff every refilled bucket
holds at least the head job's size.  Charging a dispatched job (RemoveJob)
subtracts the job's work estimate from every token, flooring at 0, as
claimed. -/
theorem C8_token_update (c : SClient) (now now2 : ℕ)
    (hne : c.pendingJobs ≠ []) (hob : c.rateLimitObeyed = false) :
    (UpdateTokens c now).rateLimits = specRefillTokens c now ∧
    ((UpdateTokens c now).rateLimitObeyed = true ↔
      ∀ l ∈ specRefillTokens c now, (c.pendingJobs.headD junkJob).jobSize ≤ l.2.2) ∧
    (RemoveJob c now2).2.rateLimits = c.rateLimits.map (fun l =>
      (l.1, l.2.1, max 0 (l.2.2 - (c.pendingJobs.headD junkJob).jobSize))) := by
  have e1 : c.pendingJobs.isEmpty = false := by
    simpa [List.isEmpty_iff] using hne
  have hlim : (UpdateTokens c now).rateLimits = specRefillTokens c now := by
    simp only [UpdateTokens, e1, Bool.false_eq_true, if_false, hob, specRefillTokens]
    by_cases hc : c.rateLimitUpdateTime < c.lastOccupancyTime
    · simp only [hc, if_pos, if_true, List.map_map]
      refine List.map_congr_left (fun l _ => ?_)
      simp only [Function.comp]
      rw [cppCap_eq_min, Nat.max_eq_right hc.le]
    · simp only [hc, if_false]
      refine List.map_congr_left (fun l _ => ?_)
      rw [Nat.max_eq_left (not_lt.mp hc)]
  refine ⟨hlim, ?_, ?_⟩
  · have hflag : (UpdateTokens c now).rateLimitObeyed =
        (UpdateTokens c now).rateLimits.all
          (fun l => decide ((c.pendingJobs.headD junkJob).jobSize ≤ l.2.2)) := by
      simp only [UpdateTokens, e1, Bool.false_eq_true, if_false, hob]
    rw [hflag, hlim, List.all_eq_true]
    constructor
    · intro h l hl
      simpa using h l hl
    · intro h l hl
      simpa using h l hl
  · simp only [RemoveJob]
    refine List.map_congr_left (fun l _ => ?_)
    rcases le_or_lt (l.2.2 - (c.pendingJobs.headD junkJob).jobSize) 0 with h | h
    · rcases lt_or_eq_of_le h with h2 | h2
      · simp only [if_pos h2]
        rw [max_eq_left h]
      · rw [h2]
        simp
    · simp only [if_neg (not_lt.mpr h.le)]
      rw [max_eq_right h.le]

/-- Witness for the amended claim C8 at a concrete tenant: one bucket (rate 1,
burst 5, token 0), queue went non-empty half a second after the last update,
considered one second after the last update; the capped phase brings the token
to 1/2, the uncapped phase to 1, and the head job of size 2 leaves the tenant
out of limits. -/
theorem C8_token_update_witness :
    (UpdateTokens
      { pendingJobs := [{ junkJob with jobSize := 2 }], priority := 0,
        rateLimits := [(1, 5, 0)], rateLimitUpdateTime := 0,
        rateLimitObeyed := false, occupancy := 0,
        lastOccupancyTime := 500000000, getOccupancyTime := 0 }
      1000000000).rateLimits =
      specRefillTokens
        { pendingJobs := [{ junkJob with jobSize := 2 }], priority := 0,
          rateLimits := [(1, 5, 0)], rateLimitUpdateTime := 0,
          rateLimitObeyed := false, occupancy := 0,
          lastOccupancyTime := 500000000, getOccupancyTime := 0 }
        1000000000 :=
  (C8_token_update _ 1000000000 0 (by simp) rfl).1

/-- The tenant state refuting claim C8 as stated: non-empty queue, but the
rateLimitObeyed flag is already set from an earlier scheduling step. -/
def cC8 : SClient :=
  { pendingJobs := [{ junkJob with jobSize := 2 }], priority := 0,
    rateLimits := [(1, 5, 0)], rateLimitUpdateTime := 0,
    rateLimitObeyed := true, occupancy := 0, lastOccupancyTime := 0,
    getOccupancyTime := 0 }

/-- Counterexample to claim C8 as stated: cC8 has a non-empty queue and is
considered at time 10^9 (one second past its last token update), so the claim
says its bucket is refilled to 1 and, since the head job's size 2 exceeds 1,
it is classified as out of limits.  The code's UpdateTokens leaves the tenant
completely unchanged (token still 0, rateLimitObeyed still true) because the
refill only happens while the rateLimitObeyed flag is clear. -/
theorem C8_counterexample :
    UpdateTokens cC8 1000000000 = cC8 ∧
    cC8.rateLimits = [(1, 5, 0)] ∧
    cC8.rateLimitObeyed = true ∧
    specRefillTokens cC8 1000000000 = [(1, 5, 1)] ∧
    (cC8.pendingJobs.headD junkJob).jobSize = 2 ∧
    ¬ ((2 : ℚ) ≤ 1) := by
  refine ⟨by with_unfolding_all rfl, by with_unfolding_all rfl, rfl,
    by with_unfolding_all rfl, by with_unfolding_all rfl, by norm_num⟩

/-- Claim C10: an unknown tenant key is silently created with priority 0 and
an empty bucket set by GetClient, hence by each of UpdateClient, GetOccupancy,
GetNumPendingJobs and SubmitJob; after the latter three the stored record
still has priority 0 and no buckets; and a tenant with zero buckets is always
classified as within its rate limits by UpdateTokens whenever its queue is
non-empty. -/
lemma alookup_cons {α : Type} (p : ℕ × α) (l : List (ℕ × α)) (k : ℕ) :
    alookup (p :: l) k = if p.1 = k then some p.2 else alookup l k := by
  by_cases h : p.1 = k <;> simp [alookup, List.find?_cons, h]

lemma alookup_append_fresh {α : Type} (l : List (ℕ × α)) (k : ℕ) (v : α)
    (h : alookup l k = none) : alookup (l ++ [(k, v)]) k = some v := by
  induction l with
  | nil => simp [alookup]
  | cons p rest ih =>
    rw [alookup_cons] at h
    by_cases hp : p.1 = k
    · rw [if_pos hp] at h
      exact absurd h (by simp)
    · rw [if_neg hp] at h
      rw [List.cons_append, alookup_cons, if_neg hp]
      exact ih h

lemma alookup_aupdate_self {α : Type} (l : List (ℕ × α)) (k : ℕ) (v : α)
    (h : (alookup l k).isSome) : alookup (aupdate l k v) k = some v := by
  induction l with
  | nil => simp [alookup] at h
  | cons p rest ih =>
    by_cases hp : p.1 = k
    · simp [aupdate, hp, alookup_cons]
    · rw [alookup_cons, if_neg hp] at h
      simp only [aupdate, List.map_cons, if_neg hp]
      rw [alookup_cons, if_neg hp]
      exact ih h

/-- Claim C10: an unknown tenant key is silently created with priority 0 and
an empty bucket set by GetClient, hence by each of UpdateClient, GetOccupancy,
GetNumPendingJobs and SubmitJob; after the latter three the stored record
still has priority 0 and no buckets (UpdateClient overwrites the fresh record
with the supplied parameters); and a tenant with zero buckets is always
classified as within its rate limits by UpdateTokens whenever its queue is
non-empty. -/
theorem C10_fresh_tenant (clients : List (ℕ × SClient))
    (addr now priority2 : ℕ) (rates bursts : List ℚ) (pJob : SJob)
    (habs : alookup clients addr = none) :
    (GetClient clients addr now).1 = defaultSClient now ∧
    (defaultSClient now).priority = 0 ∧
    (defaultSClient now).rateLimits = [] ∧
    (alookup (UpdateClient clients addr now priority2 rates bursts) addr).isSome = true ∧
    alookup (GetOccupancy clients addr now).2 addr = some (defaultSClient now) ∧
    alookup (GetNumPendingJobs clients addr now).2 addr = some (defaultSClient now) ∧
    (∃ c2, alookup (SubmitJob clients addr now pJob) addr = some c2 ∧
      c2.priority = 0 ∧ c2.rateLimits = []) ∧
    (∀ (c : SClient) (t : ℕ), c.rateLimits = [] → c.pendingJobs ≠ [] →
      (UpdateTokens c t).rateLimitObeyed = true) := by
  have hget : GetClient clients addr now =
      (defaultSClient now, clients ++ [(addr, defaultSClient now)]) := by
    rw [GetClient, habs]
  have hfresh : alookup (clients ++ [(addr, defaultSClient now)]) addr =
      some (defaultSClient now) :=
    alookup_append_fresh clients addr _ habs
  have hsome : (alookup (clients ++ [(addr, defaultSClient now)]) addr).isSome := by
    rw [hfresh]
    rfl
  refine ⟨by rw [hget], rfl, rfl, ?_, ?_, ?_, ?_, ?_⟩
  · rw [UpdateClient, hget]
    rw [alookup_aupdate_self _ _ _ hsome]
    rfl
  · rw [GetOccupancy, hget]
    exact alookup_aupdate_self _ _ _ hsome
  · rw [GetNumPendingJobs, hget]
    exact hfresh
  · rw [SubmitJob, hget]
    refine ⟨_, alookup_aupdate_self _ _ _ hsome, rfl, rfl⟩
  · intro c t hrl hne2
    have e : c.pendingJobs.isEmpty = false := by
      simpa [List.isEmpty_iff] using hne2
    by_cases hob2 : c.rateLimitObeyed
    · simp [UpdateTokens, e, hob2]
    · by_cases hc : c.rateLimitUpdateTime < c.lastOccupancyTime <;>
        simp [UpdateTokens, e, hob2, hrl, hc]

/-- Witness for claim C10 on a concrete scheduler state: the key 7 is unknown
to a one-tenant map. -/
theorem C10_fresh_tenant_witness :
    alookup (GetOccupancy [(3, defaultSClient 0)] 7 5).2 7 =
      some (defaultSClient 5) :=
  (C10_fresh_tenant [(3, defaultSClient 0)] 7 5 0 [] [] junkJob
    (by with_unfolding_all rfl)).2.2.2.2.1

/-!
## The topology engine and the compactor
(src/src/DNC-Library/WorkloadCompactor.cpp; the NC base class is modelled from
the spec)

Doubles that only ever hold finite values here (SLOs, bandwidths, shaper
parameters) are modelled as exact rationals; a flow's cached latency is a
rational or +infinity (WithTop).  The external GLPK solve
(WorkloadCompactor.cpp lines 105-211 plus SolverGLPK.cpp) is abstracted as an
oracle returning the normalized per-flow (r, b) solution or none on
infeasibility, and the numeric value computed by DNC::calcFlowLatency is
abstracted as a latency oracle (the curve analyses themselves are embedded in
the sections above; the NC glue connecting them to the object graph is not in
the tree).
-/

/-- Modelled from the spec: the NC flow record (spec data model, section 3),
extended with the DNC shaper curve and cached latency (DNC.hpp lines 66-70). -/
structure EFlow where
  name : String
  clientId : ℕ
  queueIds : List ℕ
  priority : ℕ
  shaperR : ℚ
  shaperB : ℚ
  latency : WithTop ℚ
deriving DecidableEq

/-- Modelled from the spec: the NC client record (spec data model, section 3). -/
structure EClient where
  name : String
  slo : ℚ
  flowIds : List ℕ
  latency : WithTop ℚ
deriving DecidableEq

/-- Modelled from the spec: the NC queue record (spec data model, section 3). -/
structure EQueue where
  name : String
  bandwidth : ℚ
  flows : List (ℕ × ℕ)
deriving DecidableEq

/-- The engine state owned by the admission service: the NC object graph
tables (modelled from the spec), fresh-id counters, and the compactor's
affected-queue set (WorkloadCompactor.hpp line 19). -/
structure Engine where
  queues : List (ℕ × EQueue)
  flows : List (ℕ × EFlow)
  clients : List (ℕ × EClient)
  nextFlowId : ℕ
  nextClientId : ℕ
  affected : Finset ℕ
deriving DecidableEq

def junkFlow : EFlow := ⟨"", 0, [], 0, 0, 0, 0⟩

def junkClient : EClient := ⟨"", 0, [], 0⟩

def junkQueue : EQueue := ⟨"", 0, []⟩

/-- Modelled from the spec: id lookup in the topology tables. -/
def getFlowE (st : Engine) (fid : ℕ) : EFlow := (alookup st.flows fid).getD junkFlow

/-- Modelled from the spec: id lookup in the topology tables. -/
def getClientE (st : Engine) (cid : ℕ) : EClient :=
  (alookup st.clients cid).getD junkClient

/-- Modelled from the spec: id lookup in the topology tables. -/
def getQueueE (st : Engine) (qid : ℕ) : EQueue := (alookup st.queues qid).getD junkQueue

/-- Modelled from the spec: name-to-id lookup for queues. -/
def getQueueIdByName (st : Engine) (n : String) : Option ℕ :=
  (st.queues.find? (fun p => p.2.name == n)).map Prod.fst

/-- Modelled from the spec: name-to-id lookup for flows. -/
def getFlowIdByName (st : Engine) (n : String) : Option ℕ :=
  (st.flows.find? (fun p => p.2.name == n)).map Prod.fst

/-- Modelled from the spec: name-to-id lookup for clients. -/
def getClientIdByName (st : Engine) (n : String) : Option ℕ :=
  (st.clients.find? (fun p => p.2.name == n)).map Prod.fst

/-- Pointwise update of one flow record. -/
def updateFlowE (st : Engine) (fid : ℕ) (f : EFlow → EFlow) : Engine :=
  { st with flows := st.flows.map (fun p => if p.1 = fid then (p.1, f p.2) else p) }

/-- Pointwise update of one client record. -/
def updateClientE (st : Engine) (cid : ℕ) (f : EClient → EClient) : Engine :=
  { st with clients := st.clients.map (fun p => if p.1 = cid then (p.1, f p.2) else p) }

/-- A parsed flow record of an addClients request (spec section 6): name,
queue names, arrivalInfo segments as (x, y, slope) triples (without the
implicit initial segment), and the optional priority (0 when absent). -/
structure FlowReq where
  name : String
  queues : List String
  arrivalInfo : List (ℚ × ℚ × ℚ)
  priority : ℕ
deriving DecidableEq

/-- A parsed client record of an addClients request (spec section 6). -/
structure ClientReq where
  name : String
  slo : ℚ
  sloPercentile : Option ℚ
  admitted : Option Bool
  flows : List FlowReq
deriving DecidableEq

/-- Append a (flowId, hop index) pair to a queue's flow set. -/
def queueAppendFlow (queues : List (ℕ × EQueue)) (qid fid idx : ℕ) :
    List (ℕ × EQueue) :=
  queues.map (fun p =>
    if p.1 = qid then (p.1, { p.2 with flows := p.2.flows ++ [(fid, idx)] }) else p)

/-- Modelled from the spec: wiring a new flow into each queue on its path with
its hop index (spec section 4.2, invariant 2). -/
def wireFlow (queues : List (ℕ × EQueue)) (fid : ℕ) (qids : List ℕ) :
    List (ℕ × EQueue) :=
  qids.enum.foldl (fun qs p => queueAppendFlow qs p.2 fid p.1) queues

/-- Modelled from the spec: NC flow creation inside addClient (spec section
4.2): fresh id, queue names resolved to ids, priority from the request, shaper
curve initialized to zero (DNC.cpp lines 523-537). -/
def ncAddFlow (st : Engine) (clientId : ℕ) (fr : FlowReq) : Engine × ℕ :=
  let fid := st.nextFlowId
  let qids := fr.queues.map (fun qn => (getQueueIdByName st qn).getD 0)
  let fl : EFlow := ⟨fr.name, clientId, qids, fr.priority, 0, 0, 0⟩
  ({ st with
     flows := st.flows ++ [(fid, fl)],
     queues := wireFlow st.queues fid qids,
     nextFlowId := fid + 1 }, fid)

/-- Modelled from the spec: NC::addClient (spec section 4.2): create the
client's flows in order, wire them into their queues, then create the client
record owning them. -/
def ncAddClient (st : Engine) (cr : ClientReq) : Engine × ℕ :=
  let cid := st.nextClientId
  let r := cr.flows.foldl (fun (acc : Engine × List ℕ) fr =>
    let r2 := ncAddFlow acc.1 cid fr
    (r2.1, acc.2 ++ [r2.2])) (st, [])
  ({ r.1 with
     clients := r.1.clients ++ [(cid, ⟨cr.name, cr.slo, r.2, 0⟩)],
     nextClientId := cid + 1 }, cid)

/-- Modelled from the spec: NC::delClient (spec section 4.2): remove all the
client's flows from their queues' flow sets, drop the flow records, drop the
client. -/
def ncDelClient (st : Engine) (cid : ℕ) : Engine :=
  let fids := (getClientE st cid).flowIds
  { st with
    queues := st.queues.map (fun p =>
      (p.1, { p.2 with flows := p.2.flows.filter (fun fi => !(fids.contains fi.1)) })),
    flows := st.flows.filter (fun p => !(fids.contains p.1)),
    clients := st.clients.filter (fun p => p.1 != cid) }

/-- The set of queues touched by a client's flows. -/
def clientQueueSet (st : Engine) (cid : ℕ) : Finset ℕ :=
  (getClientE st cid).flowIds.foldl
    (fun acc fid => acc ∪ (getFlowE st fid).queueIds.toFinset) ∅

/-- WorkloadCompactor::addClient (WorkloadCompactor.cpp lines 256-270): add
the workload, then mark every queue on its flows' paths as affected. -/
def wcAddClient (st : Engine) (cr : ClientReq) : Engine × ℕ :=
  let r := ncAddClient st cr
  ({ r.1 with affected := r.1.affected ∪ clientQueueSet r.1 r.2 }, r.2)

/-- WorkloadCompactor::delClient (WorkloadCompactor.cpp lines 272-285): mark
every queue on the client's flows' paths as affected, then delete the
workload. -/
def wcDelClient (st : Engine) (cid : ℕ) : Engine :=
  ncDelClient { st with affected := st.affected ∪ clientQueueSet st cid } cid

/-!
### Group discovery (WorkloadCompactor.cpp lines 24-55)

The C++ walks the affected-queue set: it pops a first affected queue, then
breadth-first expands across the relation "queue and queue share a client",
erasing every reached queue from both the remaining and the affected sets.
The loops are embedded with explicit fuel; each iteration of the inner loop
pops one pending queue and pushes exactly as many queues as it erases from the
remaining set, so the measure card(remaining) + length(pending) decreases by
exactly one per iteration and the fuel passed at the call sites (one more than
the initial measure) is always sufficient.  Each outer iteration erases at
least the first queue from the affected set, so affected-cardinality fuel
suffices there.
-/

structure DiscoverState where
  rem : Finset ℕ
  aff : Finset ℕ
  pend : List ℕ
  grp : Finset ℕ
deriving DecidableEq

/-- The innermost loop of group discovery: walk one flow's queue path, moving
queues still in the remaining set onto the pending stack (WorkloadCompactor.cpp
lines 45-51). -/
def visitPath (s : DiscoverState) : List ℕ → DiscoverState
  | [] => s
  | qid :: rest =>
    if qid ∈ s.rem then
      visitPath
        { s with
          rem := s.rem.erase qid
          aff := s.aff.erase qid
          pend := qid :: s.pend } rest
    else visitPath s rest

/-- Walk all paths of one client's flows (WorkloadCompactor.cpp lines 43-52). -/
def visitFlows (st : Engine) : List ℕ → DiscoverState → DiscoverState
  | [], s => s
  | fid :: rest, s => visitFlows st rest (visitPath s (getFlowE st fid).queueIds)

/-- Process the flows registered at one queue: record their clients in the
group and expand across those clients' paths (WorkloadCompactor.cpp lines
40-53). -/
def visitQueue (st : Engine) : List (ℕ × ℕ) → DiscoverState → DiscoverState
  | [], s => s
  | fi :: rest, s =>
    let cid := (getFlowE st fi.1).clientId
    visitQueue st rest
      (visitFlows st (getClientE st cid).flowIds { s with grp := insert cid s.grp })

/-- The breadth-first expansion loop over the pending stack
(WorkloadCompactor.cpp lines 37-54). -/
def discoverLoop (st : Engine) : ℕ → DiscoverState → DiscoverState
  | 0, s => s
  | fuel + 1, s =>
    match s.pend with
    | [] => s
    | qid :: pendRest =>
      discoverLoop st fuel
        (visitQueue st (getQueueE st qid).flows { s with pend := pendRest })

/-- The outer partition loop (WorkloadCompactor.cpp lines 30-55): as long as
affected queues remain, seed a new group with the smallest affected queue id
(std::set iteration order) and expand it; returns the client groups in
discovery order together with the final remaining and affected sets. -/
def partitionLoop (st : Engine) : ℕ → Finset ℕ → Finset ℕ →
    List (Finset ℕ) × Finset ℕ × Finset ℕ
  | 0, aff, rem => ([], aff, rem)
  | fuel + 1, aff, rem =>
    if h : aff.Nonempty then
      let firstQueueId := aff.min' h
      let s0 : DiscoverState :=
        ⟨rem.erase firstQueueId, aff.erase firstQueueId, [firstQueueId], ∅⟩
      let s1 := discoverLoop st (s0.rem.card + 2) s0
      let r := partitionLoop st fuel s1.aff s1.rem
      (s1.grp :: r.1, r.2)
    else ([], aff, rem)

/-- Oracle abstracting the LP build and solve of WorkloadCompactor.cpp lines
105-211 (SolverGLPK/GLPK are external): given the engine and a client group,
the normalized (r, b) solution per flow id, or none on infeasibility. -/
def LPOracle : Type := Engine → Finset ℕ → Option (ℕ → ℚ × ℚ)

/-- The SLO key used by the group optimizer: SLO * 0.999 "to avoid rounding
errors" (WorkloadCompactor.cpp lines 62, 126, 216, 233). -/
def sloKey (slo : ℚ) : ℚ := slo * (999 / 1000)

/-- The ascending list of distinct SLO keys of a client group: the key set of
the std::map SLOs of WorkloadCompactor.cpp lines 60-64. -/
def groupSLOList (st : Engine) (grp : Finset ℕ) : List ℚ :=
  (grp.image (fun cid => sloKey (getClientE st cid).slo)).sort (· ≤ ·)

/-- The priority assigned to an SLO key: its index in the ascending distinct
key list (WorkloadCompactor.cpp lines 65-69). -/
def sloRank (slos : List ℚ) (x : ℚ) : ℕ := slos.indexOf x

/-- The shaper curve written back into one flow: the LP solution scaled by the
first queue's bandwidth on success (WorkloadCompactor.cpp lines 219-222), zero
on infeasibility (lines 230-236). -/
def shaperFor (sol : Option (ℕ → ℚ × ℚ)) (st : Engine) (fid : ℕ) : ℚ × ℚ :=
  match sol with
  | some s =>
    let bw := (getQueueE st ((getFlowE st fid).queueIds.headD 0)).bandwidth
    ((s fid).1 * bw, (s fid).2 * bw)
  | none => (0, 0)

/-- Write one flow's shaper curve and priority back (WorkloadCompactor.cpp
lines 217-226 / 234-239). -/
def writeFlowBack (sol : Option (ℕ → ℚ × ℚ)) (pri : ℕ) (st : Engine) (fid : ℕ) :
    Engine :=
  let sh := shaperFor sol st fid
  updateFlowE st fid (fun fl =>
    { fl with shaperR := sh.1, shaperB := sh.2, priority := pri })

/-- Write a whole group's solution back, iterating the group's clients in
ascending id order (std::set iteration) and each client's flows in order
(WorkloadCompactor.cpp lines 212-241; the success and infeasibility branches
write the same priorities and differ only in the shaper values, captured by
the sol argument). -/
def writeBackGroup (sol : Option (ℕ → ℚ × ℚ)) (slos : List ℚ) (st : Engine)
    (grp : Finset ℕ) : Engine :=
  (grp.sort (· ≤ ·)).foldl (fun st1 cid =>
    (getClientE st1 cid).flowIds.foldl
      (writeFlowBack sol (sloRank slos (sloKey (getClientE st1 cid).slo))) st1) st

/-- Optimize one client group (WorkloadCompactor.cpp lines 57-242): compute
the SLO ranking, solve the LP through the oracle, and write back shaper curves
and priorities; returns false on infeasibility. -/
def optimizeGroup (lp : LPOracle) (st : Engine) (grp : Finset ℕ) : Engine × Bool :=
  let slos := groupSLOList st grp
  match lp st grp with
  | some sol => (writeBackGroup (some sol) slos st grp, true)
  | none => (writeBackGroup none slos st grp, false)

/-- WorkloadCompactor::calcShaperParameters (WorkloadCompactor.cpp lines
21-244): partition the affected queues into client groups, then optimize each
group; the result is false if any group's LP was infeasible. -/
def calcShaperParameters (lp : LPOracle) (st : Engine) : Engine × Bool :=
  let rem0 : Finset ℕ := (st.queues.map Prod.fst).toFinset
  let pr := partitionLoop st (st.affected.card + 1) st.affected rem0
  pr.1.foldl (fun (acc : Engine × Bool) grp =>
    let r := optimizeGroup lp acc.1 grp
    (r.1, acc.2 && r.2)) ({ st with affected := pr.2.1 }, true)

/-- Oracle abstracting the numeric value produced by DNC::calcFlowLatency
(DNC.cpp lines 496-521); the analyses themselves are embedded in the curve
sections above, and DNC::calcFlowLatency writes only the flow's cached
latency field. -/
def LatOracle : Type := Engine → ℕ → WithTop ℚ

/-- DNC::calcFlowLatency at the engine level: store the computed latency in
the flow record, touching nothing else. -/
def dncCalcFlowLatencyE (lat : LatOracle) (st : Engine) (fid : ℕ) : Engine :=
  updateFlowE st fid (fun fl => { fl with latency := lat st fid })

/-- WorkloadCompactor::calcFlowLatency (WorkloadCompactor.cpp lines 246-254):
re-optimize shaper parameters iff the affected set is non-empty, clear the
set, then run the DNC latency calculation; the boolean reports whether
re-optimization ran. -/
def wcCalcFlowLatency (lp : LPOracle) (lat : LatOracle) (st : Engine) (fid : ℕ) :
    Engine × Bool :=
  if st.affected = ∅ then (dncCalcFlowLatencyE lat st fid, false)
  else
    let st1 := (calcShaperParameters lp st).1
    let st2 := { st1 with affected := ∅ }
    (dncCalcFlowLatencyE lat st2 fid, true)

lemma alookup_mapValueAt {α : Type} (l : List (ℕ × α)) (fid : ℕ) (f : α → α)
    (k : ℕ) :
    alookup (l.map (fun p => if p.1 = fid then (p.1, f p.2) else p)) k =
      if k = fid then (alookup l k).map f else alookup l k := by
  induction l with
  | nil => by_cases hk : k = fid <;> simp [alookup, hk]
  | cons p rest ih =>
    by_cases hp : p.1 = fid <;> by_cases hk : p.1 = k
    · have : k = fid := by omega
      simp [alookup_cons, hp, hk, this]
    · simp only [List.map_cons, if_pos hp, alookup_cons, hk, if_false]
      simpa [hp, hk] using ih
    · have : ¬ k = fid := by omega
      simp [alookup_cons, hp, hk, this]
    · simp only [List.map_cons, if_neg hp, alookup_cons, hk, if_false]
      exact ih

lemma getFlowE_updateFlowE (st : Engine) (fid : ℕ) (f : EFlow → EFlow) (k : ℕ) :
    getFlowE (updateFlowE st fid f) k =
      if k = fid then ((alookup st.flows k).map f).getD junkFlow
      else getFlowE st k := by
  unfold getFlowE updateFlowE
  dsimp only
  rw [alookup_mapValueAt]
  split <;> rfl

/-- Claim C5: every WorkloadCompactor::calcFlowLatency call leaves the
affected-queue set empty, triggers shaper re-optimization iff the affected set
was non-empty at the call, and, when the affected set was empty, modifies no
flow's shaper curve or priority (only the queried flow's cached latency).
Quantified over every engine state and over the LP and latency oracles, so it
holds for every sequence of addClient/delClient/calcFlowLatency operations. -/
theorem C5_lazy_recompute (lp : LPOracle) (lat : LatOracle) (st : Engine)
    (fid : ℕ) :
    (wcCalcFlowLatency lp lat st fid).1.affected = ∅ ∧
    ((wcCalcFlowLatency lp lat st fid).2 = true ↔ st.affected ≠ ∅) ∧
    (st.affected = ∅ → ∀ k,
      (getFlowE (wcCalcFlowLatency lp lat st fid).1 k).shaperR =
        (getFlowE st k).shaperR ∧
      (getFlowE (wcCalcFlowLatency lp lat st fid).1 k).shaperB =
        (getFlowE st k).shaperB ∧
      (getFlowE (wcCalcFlowLatency lp lat st fid).1 k).priority =
        (getFlowE st k).priority) := by
  by_cases he : st.affected = ∅
  · have hrun : wcCalcFlowLatency lp lat st fid =
        (dncCalcFlowLatencyE lat st fid, false) := by
      rw [wcCalcFlowLatency, if_pos he]
    refine ⟨?_, ?_, ?_⟩
    · rw [hrun]
      exact he
    · rw [hrun]
      simp [he]
    · intro _ k
      rw [hrun]
      show _ ∧ _ ∧ _
      rw [dncCalcFlowLatencyE, getFlowE_updateFlowE]
      by_cases hk : k = fid
      · rw [if_pos hk, hk]
        unfold getFlowE
        cases alookup st.flows fid <;> exact ⟨rfl, rfl, rfl⟩
      · rw [if_neg hk]
        exact ⟨rfl, rfl, rfl⟩
  · have hrun : wcCalcFlowLatency lp lat st fid =
        (dncCalcFlowLatencyE lat
          { (calcShaperParameters lp st).1 with affected := ∅ } fid, true) := by
      rw [wcCalcFlowLatency, if_neg he]
    refine ⟨?_, ?_, ?_⟩
    · rw [hrun]
      rfl
    · rw [hrun]
      simp [he]
    · intro h
      exact absurd h he

def lp0 : LPOracle := fun _ _ => none

def lat0 : LatOracle := fun _ _ => 0

def st0 : Engine := ⟨[], [], [], 0, 0, ∅⟩

/-- Witness for claim C5 at the empty engine: a latency query with an empty
affected set preserves flow 3's priority. -/
theorem C5_lazy_recompute_witness :
    (getFlowE (wcCalcFlowLatency lp0 lat0 st0 3).1 3).priority =
      (getFlowE st0 3).priority :=
  ((C5_lazy_recompute lp0 lat0 st0 3).2.2 rfl 3).2.2

/-!
### Claim C6: priorities are the dense rank of the client's SLO
-/

/-- The per-group write-back loop over an explicit client list (writeBackGroup
iterates it over the group's ascending id list). -/
def writeBackFold (sol : Option (ℕ → ℚ × ℚ)) (slos : List ℚ) (L : List ℕ)
    (st1 : Engine) : Engine :=
  L.foldl (fun st2 c =>
    (getClientE st2 c).flowIds.foldl
      (writeFlowBack sol (sloRank slos (sloKey (getClientE st2 c).slo))) st2) st1

lemma writeBackGroup_eq (sol : Option (ℕ → ℚ × ℚ)) (slos : List ℚ) (st : Engine)
    (grp : Finset ℕ) :
    writeBackGroup sol slos st grp = writeBackFold sol slos (grp.sort (· ≤ ·)) st :=
  rfl

lemma updateFlowE_clients (st : Engine) (fid : ℕ) (f : EFlow → EFlow) :
    (updateFlowE st fid f).clients = st.clients := rfl

lemma writeFlowBack_eq (sol : Option (ℕ → ℚ × ℚ)) (pri : ℕ) (st : Engine)
    (fid : ℕ) :
    writeFlowBack sol pri st fid = updateFlowE st fid (fun fl =>
      { fl with
        shaperR := (shaperFor sol st fid).1
        shaperB := (shaperFor sol st fid).2
        priority := pri }) := rfl

lemma alookup_updateFlowE_ne (st : Engine) (fid : ℕ) (f : EFlow → EFlow) (k : ℕ)
    (hk : k ≠ fid) : alookup (updateFlowE st fid f).flows k = alookup st.flows k := by
  unfold updateFlowE
  dsimp only
  rw [alookup_mapValueAt, if_neg hk]

lemma alookup_updateFlowE_isSome (st : Engine) (fid : ℕ) (f : EFlow → EFlow)
    (k : ℕ) :
    (alookup (updateFlowE st fid f).flows k).isSome = (alookup st.flows k).isSome := by
  unfold updateFlowE
  dsimp only
  rw [alookup_mapValueAt]
  split
  · cases alookup st.flows k <;> rfl
  · rfl

lemma alookup_updateFlowE_self (st : Engine) (fid : ℕ) (f : EFlow → EFlow) :
    alookup (updateFlowE st fid f).flows fid = (alookup st.flows fid).map f := by
  unfold updateFlowE
  dsimp only
  rw [alookup_mapValueAt, if_pos rfl]

lemma foldWrite_clients (sol : Option (ℕ → ℚ × ℚ)) (pri : ℕ) (fids : List ℕ) :
    ∀ st : Engine, (fids.foldl (writeFlowBack sol pri) st).clients = st.clients := by
  induction fids with
  | nil => intro st; rfl
  | cons f0 rest ih =>
    intro st
    rw [List.foldl_cons, ih]
    rfl

lemma foldWrite_isSome (sol : Option (ℕ → ℚ × ℚ)) (pri : ℕ) (fids : List ℕ) :
    ∀ (st : Engine) (k : ℕ),
      (alookup (fids.foldl (writeFlowBack sol pri) st).flows k).isSome =
        (alookup st.flows k).isSome := by
  induction fids with
  | nil => intro st k; rfl
  | cons f0 rest ih =>
    intro st k
    rw [List.foldl_cons, ih, writeFlowBack_eq, alookup_updateFlowE_isSome]

lemma foldWrite_untouched (sol : Option (ℕ → ℚ × ℚ)) (pri : ℕ) (fids : List ℕ) :
    ∀ (st : Engine) (fid : ℕ), fid ∉ fids →
      alookup (fids.foldl (writeFlowBack sol pri) st).flows fid = alookup st.flows fid := by
  induction fids with
  | nil => intro st fid _; rfl
  | cons f0 rest ih =>
    intro st fid hmem
    rw [List.foldl_cons, ih _ _ (fun h => hmem (List.mem_cons_of_mem f0 h)),
      writeFlowBack_eq, alookup_updateFlowE_ne]
    intro h
    exact hmem (h ▸ List.mem_cons_self f0 rest)

lemma foldWrite_sets (sol : Option (ℕ → ℚ × ℚ)) (pri : ℕ) (fids : List ℕ) :
    ∀ (st : Engine) (fid : ℕ), fid ∈ fids → (alookup st.flows fid).isSome →
      ∃ fl, alookup (fids.foldl (writeFlowBack sol pri) st).flows fid = some fl ∧
        fl.priority = pri := by
  induction fids with
  | nil =>
    intro st fid hmem
    exact absurd hmem (List.not_mem_nil fid)
  | cons f0 rest ih =>
    intro st fid hmem hsome
    rw [List.foldl_cons]
    by_cases h2 : fid ∈ rest
    · refine ih _ fid h2 ?_
      rw [writeFlowBack_eq, alookup_updateFlowE_isSome]
      exact hsome
    · have hf0 : fid = f0 := by
        rcases List.mem_cons.mp hmem with h | h
        · exact h
        · exact absurd h h2
      subst hf0
      rw [foldWrite_untouched sol pri rest _ fid h2, writeFlowBack_eq,
        alookup_updateFlowE_self]
      rcases Option.isSome_iff_exists.mp hsome with ⟨fl, hfl⟩
      rw [hfl]
      exact ⟨_, rfl, rfl⟩

lemma getClientE_of_clients_eq (st1 st2 : Engine) (h : st1.clients = st2.clients)
    (cid : ℕ) : getClientE st1 cid = getClientE st2 cid := by
  unfold getClientE
  rw [h]

lemma writeBackFold_clients (sol : Option (ℕ → ℚ × ℚ)) (slos : List ℚ)
    (L : List ℕ) : ∀ st1 : Engine, (writeBackFold sol slos L st1).clients = st1.clients := by
  induction L with
  | nil => intro st1; rfl
  | cons c L ih =>
    intro st1
    unfold writeBackFold
    rw [List.foldl_cons]
    exact (ih _).trans (foldWrite_clients _ _ _ _)

lemma writeBackFold_isSome (sol : Option (ℕ → ℚ × ℚ)) (slos : List ℚ)
    (L : List ℕ) : ∀ (st1 : Engine) (k : ℕ),
      (alookup (writeBackFold sol slos L st1).flows k).isSome =
        (alookup st1.flows k).isSome := by
  induction L with
  | nil => intro st1 k; rfl
  | cons c L ih =>
    intro st1 k
    unfold writeBackFold
    rw [List.foldl_cons]
    exact (ih _ k).trans (foldWrite_isSome _ _ _ _ k)

lemma writeBackFold_untouched (sol : Option (ℕ → ℚ × ℚ)) (slos : List ℚ)
    (L : List ℕ) : ∀ (st1 : Engine) (fid : ℕ),
      (∀ c2 ∈ L, fid ∉ (getClientE st1 c2).flowIds) →
      alookup (writeBackFold sol slos L st1).flows fid = alookup st1.flows fid := by
  induction L with
  | nil => intro st1 fid _; rfl
  | cons c L ih =>
    intro st1 fid hnone
    unfold writeBackFold
    rw [List.foldl_cons]
    have hcl : ((getClientE st1 c).flowIds.foldl
        (writeFlowBack sol (sloRank slos (sloKey (getClientE st1 c).slo))) st1).clients =
        st1.clients := foldWrite_clients _ _ _ _
    have h1 := ih ((getClientE st1 c).flowIds.foldl
        (writeFlowBack sol (sloRank slos (sloKey (getClientE st1 c).slo))) st1) fid
      (fun c2 hc2 => by
        rw [getClientE_of_clients_eq _ st1 hcl]
        exact hnone c2 (List.mem_cons_of_mem c hc2))
    rw [writeBackFold] at h1
    rw [h1]
    exact foldWrite_untouched _ _ _ _ fid (hnone c (List.mem_cons_self c L))

lemma writeBackFold_priority (sol : Option (ℕ → ℚ × ℚ)) (slos : List ℚ)
    (cid fid : ℕ) (L : List ℕ) :
    ∀ st1 : Engine, cid ∈ L →
      fid ∈ (getClientE st1 cid).flowIds →
      (alookup st1.flows fid).isSome →
      (∀ c2 ∈ L, c2 ≠ cid → fid ∉ (getClientE st1 c2).flowIds) →
      ∃ fl, alookup (writeBackFold sol slos L st1).flows fid = some fl ∧
        fl.priority = sloRank slos (sloKey (getClientE st1 cid).slo) := by
  induction L with
  | nil =>
    intro st1 hmem
    exact absurd hmem (List.not_mem_nil cid)
  | cons c L ih =>
    intro st1 hmem hfid hsome hothers
    unfold writeBackFold
    rw [List.foldl_cons]
    set st2 := (getClientE st1 c).flowIds.foldl
      (writeFlowBack sol (sloRank slos (sloKey (getClientE st1 c).slo))) st1 with hst2
    have hcl : st2.clients = st1.clients := foldWrite_clients _ _ _ _
    have hgc : ∀ x, getClientE st2 x = getClientE st1 x :=
      getClientE_of_clients_eq st2 st1 hcl
    by_cases hc : c = cid
    · subst hc
      by_cases h2 : c ∈ L
      · have := ih st2 h2 (by rw [hgc]; exact hfid)
          (by rw [hst2, foldWrite_isSome]; exact hsome)
          (fun c2 hc2 hne => by
            rw [hgc]
            exact hothers c2 (List.mem_cons_of_mem c hc2) hne)
        rwa [hgc c] at this
      · obtain ⟨fl, hfl, hpri⟩ := foldWrite_sets sol
          (sloRank slos (sloKey (getClientE st1 c).slo)) _ st1 fid hfid hsome
        have huntouched : alookup (writeBackFold sol slos L st2).flows fid =
            alookup st2.flows fid := by
          refine writeBackFold_untouched sol slos L st2 fid (fun c2 hc2 => ?_)
          rw [hgc]
          refine hothers c2 (List.mem_cons_of_mem c hc2) (fun he => ?_)
          rw [he] at hc2
          exact h2 hc2
        exact ⟨fl, by rw [writeBackFold] at huntouched; rw [huntouched, hst2]; exact hfl, hpri⟩
    · have hfid2 : fid ∉ (getClientE st1 c).flowIds :=
        hothers c (List.mem_cons_self c L) hc
      have hne : alookup st2.flows fid = alookup st1.flows fid := by
        rw [hst2]
        exact foldWrite_untouched _ _ _ _ fid hfid2
      have hmem2 : cid ∈ L := by
        rcases List.mem_cons.mp hmem with h | h
        · exact absurd h.symm hc
        · exact h
      have := ih st2 hmem2 (by rw [hgc]; exact hfid)
        (by rw [hne]; exact hsome)
        (fun c2 hc2 hne2 => by
          rw [hgc]
          exact hothers c2 (List.mem_cons_of_mem c hc2) hne2)
      rwa [hgc cid] at this

lemma indexOf_sorted_lt (l : List ℚ) (hl : l.Sorted (· < ·)) (x : ℚ)
    (hx : x ∈ l) :
    l.indexOf x = (l.filter (fun y => decide (y < x))).length := by
  induction l with
  | nil => cases hx
  | cons a rest ih =>
    rw [List.sorted_cons] at hl
    obtain ⟨ha, hrest⟩ := hl
    rcases List.mem_cons.mp hx with rfl | hx2
    · rw [List.indexOf_cons_self]
      have hnil : rest.filter (fun y => decide (y < x)) = [] := by
        rw [List.filter_eq_nil_iff]
        intro y hy
        simp only [decide_eq_true_eq]
        exact not_lt.mpr (ha y hy).le
      simp [List.filter_cons, hnil]
    · have hax : a ≠ x := fun h => absurd (h ▸ ha x hx2) (lt_irrefl x)
      rw [List.indexOf_cons_ne rest hax]
      have hpa : decide (a < x) = true := by
        simp only [decide_eq_true_eq]
        exact ha x hx2
      simp only [List.filter_cons, hpa, if_true, List.length_cons]
      rw [ih hrest hx2]

lemma sort_filter_length (s : Finset ℚ) (x : ℚ) :
    ((s.sort (· ≤ ·)).filter (fun y => decide (y < x))).length =
      (s.filter (fun y => y < x)).card := by
  rw [← List.countP_eq_length_filter]
  rw [(Finset.sort_perm_toList (· ≤ ·) s).countP_eq]
  have h1 : Multiset.countP (fun y => y < x) (↑s.toList) =
      List.countP (fun b => decide (b < x)) s.toList := Multiset.coe_countP _ _
  rw [Finset.coe_toList] at h1
  rw [← h1, Multiset.countP_eq_card_filter, Finset.card_def, Finset.filter_val]

lemma sloKey_lt_iff (a b : ℚ) : sloKey a < sloKey b ↔ a < b := by
  unfold sloKey
  exact mul_lt_mul_right (by norm_num)

lemma sloKey_injective : Function.Injective sloKey := by
  intro a b h
  unfold sloKey at h
  exact mul_right_cancel₀ (by norm_num) h

lemma sloRank_eq_denseRank (st : Engine) (grp : Finset ℕ) (cid : ℕ)
    (hc : cid ∈ grp) :
    sloRank (groupSLOList st grp) (sloKey (getClientE st cid).slo) =
      ((grp.image (fun k => (getClientE st k).slo)).filter
        (fun x => x < (getClientE st cid).slo)).card := by
  unfold sloRank groupSLOList
  rw [indexOf_sorted_lt _ (Finset.sort_sorted_lt _) _
    ((Finset.mem_sort _).mpr
      (Finset.mem_image_of_mem (fun k => sloKey (getClientE st k).slo) hc))]
  rw [sort_filter_length]
  have himg : grp.image (fun k => sloKey (getClientE st k).slo) =
      (grp.image (fun k => (getClientE st k).slo)).image sloKey := by
    rw [Finset.image_image]
    rfl
  rw [himg, Finset.filter_image,
    Finset.card_image_of_injective _ sloKey_injective]
  congr 1
  refine Finset.filter_congr (fun y _ => ?_)
  rw [sloKey_lt_iff]

/-- Claim C6: after re-optimization of a connected component - whether the LP
succeeds or is infeasible - every flow of every client in the component has
priority equal to the 0-based dense rank of its owning client's SLO among the
distinct SLO values of the component's clients, smallest SLO getting priority
0.  (The flow must exist and be owned by a single client of the component.) -/
theorem C6_priority_dense_rank (lp : LPOracle) (st : Engine) (grp : Finset ℕ)
    (cid fid : ℕ) (hc : cid ∈ grp)
    (hf : fid ∈ (getClientE st cid).flowIds)
    (hpres : (alookup st.flows fid).isSome = true)
    (hdisj : ∀ c2 ∈ grp, c2 ≠ cid → fid ∉ (getClientE st c2).flowIds) :
    (getFlowE (optimizeGroup lp st grp).1 fid).priority =
      ((grp.image (fun k => (getClientE st k).slo)).filter
        (fun x => x < (getClientE st cid).slo)).card := by
  have key : ∀ sol : Option (ℕ → ℚ × ℚ),
      (getFlowE (writeBackGroup sol (groupSLOList st grp) st grp) fid).priority =
        ((grp.image (fun k => (getClientE st k).slo)).filter
          (fun x => x < (getClientE st cid).slo)).card := by
    intro sol
    obtain ⟨fl, hfl, hpri⟩ := writeBackFold_priority sol (groupSLOList st grp)
      cid fid (grp.sort (· ≤ ·)) st ((Finset.mem_sort _).mpr hc) hf hpres
      (fun c2 h2 => hdisj c2 ((Finset.mem_sort _).mp h2))
    rw [writeBackGroup_eq]
    unfold getFlowE
    rw [hfl]
    show fl.priority = _
    rw [hpri, sloRank_eq_denseRank st grp cid hc]
  rcases hres : lp st grp with _ | sol
  · simp only [optimizeGroup, hres]
    exact key none
  · simp only [optimizeGroup, hres]
    exact key (some sol)

def stC6 : Engine :=
  ⟨[(0, ⟨"Q", 1, [(0, 0)]⟩)], [(0, ⟨"F", 0, [0], 0, 0, 0, 0⟩)],
   [(0, ⟨"A", 5, [0], 0⟩)], 1, 1, ∅⟩

/-- Witness for claim C6 on a one-client component. -/
theorem C6_priority_dense_rank_witness :
    (getFlowE (optimizeGroup lp0 stC6 {0}).1 0).priority =
      ((({0} : Finset ℕ).image (fun k => (getClientE stC6 k).slo)).filter
        (fun x => x < (getClientE stC6 0).slo)).card :=
  C6_priority_dense_rank lp0 stC6 {0} 0 0 (by decide)
    (by with_unfolding_all decide) (by with_unfolding_all rfl)
    (by decide)

/-!
## The admission service (src/src/AdmissionController/AdmissionController.cpp)

The RPC surface works on parsed requests (the ClientReq/FlowReq records);
JSON-shape failures (missing members, non-array values, unparsable input) are
artifacts of the wire format that the typed records cannot represent and are
outside this embedding - the corresponding status paths concern inputs that do
not parse into the records at all.  The enforcement-point RPC pushes
(updateNetEnforcerClient and friends) are external side effects with no
engine-state footprint and are not modelled.  The global clientInfoStore JSON
cache mirrors the client table and carries no engine state; it is likewise
omitted.
-/

inductive AdmissionStatus where
  | success
  | errMissingArgument
  | errInvalidArgument
  | errFlowNameInUse
  | errClientNameInUse
  | errQueueNameNonexistent
  | errClientNameNonexistent
  | errQueueNameInUse
  | errQueueHasActiveFlows
deriving DecidableEq

/-- checkFlowInfo (AdmissionController.cpp lines 91-124): flow name not in use
in the engine nor earlier in the request, all referenced queues exist; the
flow name is recorded before the queue check, as in the source. -/
def checkFlowInfo (st : Engine) (flowNames : List String) (fr : FlowReq) :
    AdmissionStatus × List String :=
  if (getFlowIdByName st fr.name).isSome then (.errFlowNameInUse, flowNames)
  else if flowNames.contains fr.name then (.errFlowNameInUse, flowNames)
  else
    let flowNames2 := fr.name :: flowNames
    if fr.queues.any (fun qn => (getQueueIdByName st qn).isNone) then
      (.errQueueNameNonexistent, flowNames2)
    else (.success, flowNames2)

/-- The loop over a client's flows in checkClientInfo (AdmissionController.cpp
lines 165-170), stopping at the first failure. -/
def checkFlowInfos (st : Engine) (flowNames : List String) :
    List FlowReq → AdmissionStatus × List String
  | [] => (.success, flowNames)
  | fr :: rest =>
    let r := checkFlowInfo st flowNames fr
    if r.1 = .success then checkFlowInfos st r.2 rest else r

/-- checkClientInfo (AdmissionController.cpp lines 128-172): client name not
in use in the engine nor earlier in the request, positive SLO, percentile
strictly inside (0, 100) when present, and all flows valid. -/
def checkClientInfo (st : Engine) (clientNames flowNames : List String)
    (cr : ClientReq) : AdmissionStatus × List String × List String :=
  if (getClientIdByName st cr.name).isSome then
    (.errClientNameInUse, clientNames, flowNames)
  else if clientNames.contains cr.name then
    (.errClientNameInUse, clientNames, flowNames)
  else
    let clientNames2 := cr.name :: clientNames
    if cr.slo ≤ 0 then (.errInvalidArgument, clientNames2, flowNames)
    else if (match cr.sloPercentile with
        | some p => !(decide (0 < p) && decide (p < 100))
        | none => false) then
      (.errInvalidArgument, clientNames2, flowNames)
    else
      let r := checkFlowInfos st flowNames cr.flows
      (r.1, clientNames2, r.2)

/-- The loop of checkClientInfos (AdmissionController.cpp lines 176-191). -/
def checkClientInfosGo (st : Engine) :
    List String → List String → List ClientReq → AdmissionStatus
  | _, _, [] => .success
  | clientNames, flowNames, cr :: rest =>
    let r := checkClientInfo st clientNames flowNames cr
    if r.1 = .success then checkClientInfosGo st r.2.1 r.2.2 rest else r.1

/-- checkClientInfos (AdmissionController.cpp lines 176-191). -/
def checkClientInfos (st : Engine) (req : List ClientReq) : AdmissionStatus :=
  checkClientInfosGo st [] [] req

/-- The long-term arrival rate of a requested flow: the slope of the last
arrivalInfo segment (arrivalCurve.back().slope in checkOverload, line 291; the
read is undefined behavior on an empty arrivalInfo and resolves to 0 here). -/
def lastSlope (fr : FlowReq) : ℚ := ((fr.arrivalInfo.getLast?).map (fun t => t.2.2)).getD 0

/-- The inner accumulation of checkOverload (AdmissionController.cpp lines
292-302): add up the shaper rates of the flows at one queue; none encodes the
early return false on an uninitialized (0, 0) shaper curve. -/
def scanQueueFlows (st : Engine) : List (ℕ × ℕ) → ℚ → Option ℚ
  | [], load => some load
  | fi :: rest, load =>
    let sh := getFlowE st fi.1
    if sh.shaperR = 0 ∧ sh.shaperB = 0 then none
    else scanQueueFlows st rest (load + sh.shaperR)

/-- The queue referenced by name in a request (checkOverload resolves names
through getQueueIdByName, line 289). -/
def queueOfName (st : Engine) (qn : String) : EQueue :=
  getQueueE st ((getQueueIdByName st qn).getD 0)

/-- The per-queue loop of checkOverload (AdmissionController.cpp lines
287-306): compare the load against 0.999999 of the queue's bandwidth. -/
def scanFlowQueues (st : Engine) (slope : ℚ) : List String → Bool → Option Bool
  | [], poss => some poss
  | qn :: rest, poss =>
    let q := queueOfName st qn
    match scanQueueFlows st q.flows slope with
    | none => none
    | some load =>
      scanFlowQueues st slope rest
        (poss || decide ((999999 / 1000000) * q.bandwidth < load))

/-- The per-flow loop of checkOverload (AdmissionController.cpp lines
282-307). -/
def scanClientFlows (st : Engine) : List FlowReq → Bool → Option Bool
  | [], poss => some poss
  | fr :: rest, poss =>
    match scanFlowQueues st (lastSlope fr) fr.queues poss with
    | none => none
    | some poss2 => scanClientFlows st rest poss2

/-- The per-client loop of checkOverload (AdmissionController.cpp lines
275-308): clients marked admitted are skipped. -/
def scanClients (st : Engine) : List ClientReq → Bool → Option Bool
  | [], poss => some poss
  | cr :: rest, poss =>
    if cr.admitted = some true then scanClients st rest poss
    else
      match scanClientFlows st cr.flows poss with
      | none => none
      | some poss2 => scanClients st rest poss2

/-- checkOverload (AdmissionController.cpp lines 270-311); the dynamic_cast
guard always succeeds for the WorkloadCompactor engine the service creates. -/
def checkOverload (st : Engine) (req : List ClientReq) : Bool :=
  match scanClients st req false with
  | none => false
  | some poss => poss

/-- Modelled from the spec: NC::calcClientLatency (NC.cpp is not in the tree):
recompute each owned flow's latency through the compactor (triggering the lazy
re-optimization) and cache the client's latency; the spec calls this
"recomputes their client latencies", and the client latency is the worst
(maximum) latency over the client's flows. -/
def calcClientLatency (lp : LPOracle) (lat : LatOracle) (st : Engine) (cid : ℕ) :
    Engine :=
  let st1 := (getClientE st cid).flowIds.foldl
    (fun st2 fid => (wcCalcFlowLatency lp lat st2 fid).1) st
  let newLat := (getClientE st1 cid).flowIds.foldl
    (fun m fid => max m (getFlowE st1 fid).latency) 0
  updateClientE st1 cid (fun c => { c with latency := newLat })

/-- markAffectedFlows (AdmissionController.cpp lines 203-223) as a worklist
recursion: pop a (flow, hop index, propagated priority) item; skip it if the
flow is strictly higher priority than the propagated one or already marked;
otherwise mark it and push every flow sharing any of its queues from the hop
index onward, propagated at this flow's priority.  The items are prepended
in order, so the traversal is exactly the depth-first order of the C++
recursion.  Fuel bounds the recursion; the C++ terminates because the marked
set grows, and the call sites pass fuel exceeding the worst-case number of
steps. -/
def markAffectedLoop (st : Engine) :
    ℕ → Finset (ℕ × ℕ) → List ((ℕ × ℕ) × ℕ) → Finset (ℕ × ℕ)
  | 0, visited, _ => visited
  | _ + 1, visited, [] => visited
  | fuel + 1, visited, (fi, priority) :: work =>
    let f := getFlowE st fi.1
    if f.priority < priority then markAffectedLoop st fuel visited work
    else if fi ∈ visited then markAffectedLoop st fuel visited work
    else
      let newWork := (f.queueIds.drop fi.2).foldl (fun acc qid =>
        acc ++ (getQueueE st qid).flows.map (fun fj => (fj, f.priority))) []
      markAffectedLoop st fuel (insert fi visited) (newWork ++ work)

/-- Fuel bound for markAffectedLoop: with P the total number of (flow, index)
pairs registered at queues, at most 1 + P^2 work items are ever processed. -/
def markFuel (st : Engine) : ℕ :=
  (st.queues.foldl (fun a p => a + p.2.flows.length) 0 + 2) ^ 2

/-- The first loop of checkLatency (AdmissionController.cpp lines 230-245):
recompute each added client's latency, reject on the first SLO violation,
otherwise mark the flows affected by the client's flows. -/
def checkLatencyAdded (lp : LPOracle) (lat : LatOracle) :
    List ℕ → Engine → Finset (ℕ × ℕ) → Engine × Bool × Finset (ℕ × ℕ)
  | [], st, aff => (st, true, aff)
  | cid :: rest, st, aff =>
    let st1 := calcClientLatency lp lat st cid
    let c := getClientE st1 cid
    if (c.slo : WithTop ℚ) < c.latency then (st1, false, aff)
    else
      checkLatencyAdded lp lat rest st1
        (c.flowIds.foldl
          (fun a fid => markAffectedLoop st1 (markFuel st1) a [((fid, 0), 0)]) aff)

/-- The second loop of checkLatency (AdmissionController.cpp lines 246-265):
check the other affected clients. -/
def checkLatencyAffected (lp : LPOracle) (lat : LatOracle) (clientIds : Finset ℕ) :
    List ℕ → Engine → Engine × Bool
  | [], st => (st, true)
  | cid :: rest, st =>
    if cid ∈ clientIds then checkLatencyAffected lp lat clientIds rest st
    else
      let st1 := calcClientLatency lp lat st cid
      let c := getClientE st1 cid
      if (c.slo : WithTop ℚ) < c.latency then (st1, false)
      else checkLatencyAffected lp lat clientIds rest st1

/-- checkLatency (AdmissionController.cpp lines 226-267). -/
def checkLatency (lp : LPOracle) (lat : LatOracle) (st : Engine)
    (clientIds : Finset ℕ) : Engine × Bool :=
  let r := checkLatencyAdded lp lat (clientIds.sort (· ≤ ·)) st ∅
  if r.2.1 then
    let affectedClientIds := r.2.2.image (fun fi => (getFlowE r.1 fi.1).clientId)
    checkLatencyAffected lp lat clientIds (affectedClientIds.sort (· ≤ ·)) r.1
  else (r.1, false)

/-- The client-adding loop of admission_controller_add_clients_svc
(AdmissionController.cpp lines 342-349). -/
def addAllClients (st : Engine) (req : List ClientReq) : Engine × Finset ℕ :=
  req.foldl (fun acc cr =>
    let r2 := wcAddClient acc.1 cr
    (r2.1, insert r2.2 acc.2)) (st, ∅)

/-- The rejection cleanup of admission_controller_add_clients_svc
(AdmissionController.cpp lines 380-387): delete the added clients in
ascending id order (std::set iteration). -/
def delAllClients (st : Engine) (cids : Finset ℕ) : Engine :=
  (cids.sort (· ≤ ·)).foldl wcDelClient st

/-- admission_controller_add_clients_svc (AdmissionController.cpp lines
315-389): validate, optionally short-circuit through checkOverload, add all
clients, skip the latency check when every client record carries
admitted=true, and on rejection delete every added client.  Returns the new
engine state, the status, and the admitted flag. -/
def addClientsSvc (lp : LPOracle) (lat : LatOracle) (st : Engine)
    (req : List ClientReq) (fastFirstFit : Bool) :
    Engine × AdmissionStatus × Bool :=
  let status := checkClientInfos st req
  if status ≠ .success then (st, status, false)
  else if fastFirstFit && checkOverload st req then (st, .success, false)
  else
    let r := addAllClients st req
    let admitOverride := req.all (fun cr => decide (cr.admitted = some true))
    if admitOverride then (r.1, .success, true)
    else
      let r2 := checkLatency lp lat r.1 r.2
      if r2.2 then (r2.1, .success, true)
      else (delAllClients r2.1 r.2, .success, false)

/-- Claim C9: when every client record of an addClients request carries
admitted=true, the service skips the latency/SLO check entirely and returns
admitted=true, provided validation and the optional fast-first-fit check pass.
The conclusion holds for every latency oracle, which is exactly the sense in
which the result is independent of any computed latency. -/
theorem C9_admit_override (lp : LPOracle) (lat : LatOracle) (st : Engine)
    (req : List ClientReq) (ff : Bool)
    (hval : checkClientInfos st req = .success)
    (hov : ff = true → checkOverload st req = false)
    (hall : ∀ cr ∈ req, cr.admitted = some true) :
    (addClientsSvc lp lat st req ff).2.2 = true := by
  have hovf : (ff && checkOverload st req) = false := by
    cases hff : ff
    · rfl
    · simp [hov hff]
  have hall2 : req.all (fun cr => decide (cr.admitted = some true)) = true := by
    rw [List.all_eq_true]
    intro cr hcr
    simp [hall cr hcr]
  simp [addClientsSvc, hval, hovf, hall2]

def stAdm : Engine := ⟨[(0, ⟨"Q", 1, []⟩)], [], [], 0, 0, ∅⟩

def crOverride : ClientReq :=
  ⟨"A", 1, none, some true, [⟨"FA", ["Q"], [(0, 1, 1/2)], 0⟩]⟩

/-- Witness for claim C9 at a concrete one-queue engine and a one-client
request marked admitted=true. -/
theorem C9_admit_override_witness :
    (addClientsSvc lp0 lat0 stAdm [crOverride] false).2.2 = true :=
  C9_admit_override lp0 lat0 stAdm [crOverride] false
    (by with_unfolding_all rfl)
    (fun h => Bool.noConfusion h)
    (by
      intro cr hcr
      rcases List.mem_singleton.mp hcr with rfl
      rfl)

/-!
## Claim C4: the fastFirstFit overload short-circuit
-/

/-- An uninitialized shaper in the sense of checkOverload (AdmissionController.cpp
line 296): both shaper parameters are zero. -/
def uninitShaper (st : Engine) (fid : ℕ) : Prop :=
  (getFlowE st fid).shaperR = 0 ∧ (getFlowE st fid).shaperB = 0

/-- The load checkOverload computes for one queue: the new flow's long-term
arrival rate plus the sum of the existing flows' shaper rates at the queue. -/
def queueLoad (st : Engine) (slope : ℚ) (qn : String) : ℚ :=
  slope + ((queueOfName st qn).flows.map (fun fi => (getFlowE st fi.1).shaperR)).sum

lemma scanQueueFlows_none_iff (st : Engine) (l : List (ℕ × ℕ)) :
    ∀ load, scanQueueFlows st l load = none ↔ ∃ fi ∈ l, uninitShaper st fi.1 := by
  induction l with
  | nil => intro load; simp [scanQueueFlows]
  | cons fi rest ih =>
    intro load
    unfold scanQueueFlows
    dsimp only
    by_cases h : (getFlowE st fi.1).shaperR = 0 ∧ (getFlowE st fi.1).shaperB = 0
    · rw [if_pos h]
      simp only [List.mem_cons]
      constructor
      · intro _
        exact ⟨fi, Or.inl rfl, h⟩
      · intro _
        trivial
    · rw [if_neg h, ih]
      simp only [List.mem_cons]
      constructor
      · rintro ⟨fj, hm, hu⟩
        exact ⟨fj, Or.inr hm, hu⟩
      · rintro ⟨fj, hm | hm, hu⟩
        · subst hm
          exact absurd hu h
        · exact ⟨fj, hm, hu⟩

lemma scanQueueFlows_some (st : Engine) (l : List (ℕ × ℕ)) :
    (∀ fi ∈ l, ¬ uninitShaper st fi.1) →
    ∀ load, scanQueueFlows st l load =
      some (load + (l.map (fun fi => (getFlowE st fi.1).shaperR)).sum) := by
  induction l with
  | nil => intro _ load; simp [scanQueueFlows]
  | cons fi rest ih =>
    intro h load
    unfold scanQueueFlows
    dsimp only
    have hni : ¬ ((getFlowE st fi.1).shaperR = 0 ∧ (getFlowE st fi.1).shaperB = 0) :=
      h fi (List.mem_cons_self _ _)
    rw [if_neg hni, ih (fun fj hm => h fj (List.mem_cons_of_mem _ hm)) _]
    simp only [List.map_cons, List.sum_cons, add_assoc]

lemma scanFlowQueues_none_iff (st : Engine) (slope : ℚ) (qns : List String) :
    ∀ poss, scanFlowQueues st slope qns poss = none ↔
      ∃ qn ∈ qns, ∃ fi ∈ (queueOfName st qn).flows, uninitShaper st fi.1 := by
  induction qns with
  | nil => intro poss; simp [scanFlowQueues]
  | cons qn rest ih =>
    intro poss
    unfold scanFlowQueues
    dsimp only
    cases hscan : scanQueueFlows st (queueOfName st qn).flows slope with
    | none =>
      dsimp only
      simp only [List.mem_cons]
      constructor
      · intro _
        exact ⟨qn, Or.inl rfl, (scanQueueFlows_none_iff st _ slope).mp hscan⟩
      · intro _
        trivial
    | some load =>
      dsimp only
      rw [ih _]
      have hno : ¬ ∃ fi ∈ (queueOfName st qn).flows, uninitShaper st fi.1 := by
        intro hex
        have h2 := (scanQueueFlows_none_iff st _ slope).mpr hex
        rw [hscan] at h2
        exact Option.noConfusion h2
      simp only [List.mem_cons]
      constructor
      · rintro ⟨qn2, hm, hex⟩
        exact ⟨qn2, Or.inr hm, hex⟩
      · rintro ⟨qn2, hm | hm, hex⟩
        · subst hm
          exact absurd hex hno
        · exact ⟨qn2, hm, hex⟩

lemma scanFlowQueues_some (st : Engine) (slope : ℚ) (qns : List String) :
    (∀ qn ∈ qns, ∀ fi ∈ (queueOfName st qn).flows, ¬ uninitShaper st fi.1) →
    ∀ poss, scanFlowQueues st slope qns poss =
      some (poss || qns.any (fun qn =>
        decide ((999999 / 1000000) * (queueOfName st qn).bandwidth <
          queueLoad st slope qn))) := by
  induction qns with
  | nil => intro _ poss; simp [scanFlowQueues]
  | cons qn rest ih =>
    intro h poss
    unfold scanFlowQueues
    dsimp only
    rw [scanQueueFlows_some st (queueOfName st qn).flows
      (h qn (List.mem_cons_self _ _)) slope]
    dsimp only
    rw [ih (fun qn2 hm => h qn2 (List.mem_cons_of_mem _ hm)) _]
    simp only [List.any_cons, queueLoad, Bool.or_assoc]

lemma scanClientFlows_none_iff (st : Engine) (frs : List FlowReq) :
    ∀ poss, scanClientFlows st frs poss = none ↔
      ∃ fr ∈ frs, ∃ qn ∈ fr.queues, ∃ fi ∈ (queueOfName st qn).flows,
        uninitShaper st fi.1 := by
  induction frs with
  | nil => intro poss; simp [scanClientFlows]
  | cons fr rest ih =>
    intro poss
    unfold scanClientFlows
    cases hscan : scanFlowQueues st (lastSlope fr) fr.queues poss with
    | none =>
      dsimp only
      simp only [List.mem_cons]
      constructor
      · intro _
        exact ⟨fr, Or.inl rfl,
          (scanFlowQueues_none_iff st (lastSlope fr) fr.queues poss).mp hscan⟩
      · intro _
        trivial
    | some poss2 =>
      dsimp only
      rw [ih _]
      have hno : ¬ ∃ qn ∈ fr.queues, ∃ fi ∈ (queueOfName st qn).flows,
          uninitShaper st fi.1 := by
        intro hex
        have h2 := (scanFlowQueues_none_iff st (lastSlope fr) fr.queues poss).mpr hex
        rw [hscan] at h2
        exact Option.noConfusion h2
      simp only [List.mem_cons]
      constructor
      · rintro ⟨fr2, hm, hex⟩
        exact ⟨fr2, Or.inr hm, hex⟩
      · rintro ⟨fr2, hm | hm, hex⟩
        · subst hm
          exact absurd hex hno
        · exact ⟨fr2, hm, hex⟩

lemma scanClientFlows_some (st : Engine) (frs : List FlowReq) :
    (∀ fr ∈ frs, ∀ qn ∈ fr.queues, ∀ fi ∈ (queueOfName st qn).flows,
      ¬ uninitShaper st fi.1) →
    ∀ poss, scanClientFlows st frs poss =
      some (poss || frs.any (fun fr => fr.queues.any (fun qn =>
        decide ((999999 / 1000000) * (queueOfName st qn).bandwidth <
          queueLoad st (lastSlope fr) qn)))) := by
  induction frs with
  | nil => intro _ poss; simp [scanClientFlows]
  | cons fr rest ih =>
    intro h poss
    unfold scanClientFlows
    rw [scanFlowQueues_some st (lastSlope fr) fr.queues
      (h fr (List.mem_cons_self _ _)) poss]
    dsimp only
    rw [ih (fun fr2 hm => h fr2 (List.mem_cons_of_mem _ hm)) _]
    simp only [List.any_cons, Bool.or_assoc]

lemma scanClients_none_iff (st : Engine) (req : List ClientReq) :
    ∀ poss, scanClients st req poss = none ↔
      ∃ cr ∈ req, cr.admitted ≠ some true ∧ ∃ fr ∈ cr.flows, ∃ qn ∈ fr.queues,
        ∃ fi ∈ (queueOfName st qn).flows, uninitShaper st fi.1 := by
  induction req with
  | nil => intro poss; simp [scanClients]
  | cons cr rest ih =>
    intro poss
    unfold scanClients
    by_cases ha : cr.admitted = some true
    · rw [if_pos ha, ih _]
      simp only [List.mem_cons]
      constructor
      · rintro ⟨cr2, hm, hna, hex⟩
        exact ⟨cr2, Or.inr hm, hna, hex⟩
      · rintro ⟨cr2, hm | hm, hna, hex⟩
        · subst hm
          exact absurd ha hna
        · exact ⟨cr2, hm, hna, hex⟩
    · rw [if_neg ha]
      cases hscan : scanClientFlows st cr.flows poss with
      | none =>
        dsimp only
        simp only [List.mem_cons]
        constructor
        · intro _
          exact ⟨cr, Or.inl rfl, ha,
            (scanClientFlows_none_iff st cr.flows poss).mp hscan⟩
        · intro _
          trivial
      | some poss2 =>
        dsimp only
        rw [ih _]
        have hno : ¬ ∃ fr ∈ cr.flows, ∃ qn ∈ fr.queues,
            ∃ fi ∈ (queueOfName st qn).flows, uninitShaper st fi.1 := by
          intro hex
          have h2 := (scanClientFlows_none_iff st cr.flows poss).mpr hex
          rw [hscan] at h2
          exact Option.noConfusion h2
        simp only [List.mem_cons]
        constructor
        · rintro ⟨cr2, hm, hna, hex⟩
          exact ⟨cr2, Or.inr hm, hna, hex⟩
        · rintro ⟨cr2, hm | hm, hna, hex⟩
          · subst hm
            exact absurd hex hno
          · exact ⟨cr2, hm, hna, hex⟩

lemma scanClients_some (st : Engine) (req : List ClientReq) :
    (∀ cr ∈ req, cr.admitted ≠ some true → ∀ fr ∈ cr.flows, ∀ qn ∈ fr.queues,
      ∀ fi ∈ (queueOfName st qn).flows, ¬ uninitShaper st fi.1) →
    ∀ poss, scanClients st req poss =
      some (poss || req.any (fun cr =>
        !(decide (cr.admitted = some true)) && cr.flows.any (fun fr =>
          fr.queues.any (fun qn =>
            decide ((999999 / 1000000) * (queueOfName st qn).bandwidth <
              queueLoad st (lastSlope fr) qn))))) := by
  induction req with
  | nil => intro _ poss; simp [scanClients]
  | cons cr rest ih =>
    intro h poss
    unfold scanClients
    by_cases ha : cr.admitted = some true
    · rw [if_pos ha, ih (fun cr2 hm => h cr2 (List.mem_cons_of_mem _ hm)) _]
      have hf : (!(decide (cr.admitted = some true))) = false := by
        simp [ha]
      simp only [List.any_cons, hf, Bool.false_and, Bool.false_or]
    · rw [if_neg ha]
      rw [scanClientFlows_some st cr.flows (h cr (List.mem_cons_self _ _) ha) poss]
      dsimp only
      rw [ih (fun cr2 hm => h cr2 (List.mem_cons_of_mem _ hm)) _]
      have hf : (!(decide (cr.admitted = some true))) = true := by
        simp [ha]
      simp only [List.any_cons, hf, Bool.true_and, Bool.or_assoc]

/-- checkOverload fires iff no scanned flow carries an uninitialized shaper
and some scanned queue's load exceeds 0.999999 of its bandwidth. -/
lemma checkOverload_iff (st : Engine) (req : List ClientReq) :
    checkOverload st req = true ↔
      ((∀ cr ∈ req, cr.admitted ≠ some true → ∀ fr ∈ cr.flows,
          ∀ qn ∈ fr.queues, ∀ fi ∈ (queueOfName st qn).flows,
            ¬ uninitShaper st fi.1) ∧
        ∃ cr ∈ req, cr.admitted ≠ some true ∧ ∃ fr ∈ cr.flows,
          ∃ qn ∈ fr.queues,
            (999999 / 1000000) * (queueOfName st qn).bandwidth <
              queueLoad st (lastSlope fr) qn) := by
  unfold checkOverload
  by_cases hu : ∀ cr ∈ req, cr.admitted ≠ some true → ∀ fr ∈ cr.flows,
      ∀ qn ∈ fr.queues, ∀ fi ∈ (queueOfName st qn).flows, ¬ uninitShaper st fi.1
  · rw [scanClients_some st req hu false]
    dsimp only
    simp only [Bool.false_or]
    rw [List.any_eq_true]
    constructor
    · rintro ⟨cr, hm, hb⟩
      simp only [Bool.and_eq_true, Bool.not_eq_true', decide_eq_false_iff_not,
        List.any_eq_true, decide_eq_true_eq] at hb
      exact ⟨hu, cr, hm, hb.1, hb.2⟩
    · rintro ⟨-, cr, hm, hna, hex⟩
      refine ⟨cr, hm, ?_⟩
      simp only [Bool.and_eq_true, Bool.not_eq_true', decide_eq_false_iff_not,
        List.any_eq_true, decide_eq_true_eq]
      exact ⟨hna, hex⟩
  · have hu2 := hu
    push_neg at hu2
    have hnone := (scanClients_none_iff st req false).mpr hu2
    rw [hnone]
    dsimp only
    constructor
    · intro hc
      exact Bool.noConfusion hc
    · rintro ⟨hall, -⟩
      exact absurd hall hu

/-- Claim C4 (amended): with fastFirstFit true and valid input, the overload
check compares, for each not-yet-admitted client's flow and each queue it
touches, the load (the new flow's long-term arrival rate plus the sum of the
existing flows' shaper rates at the queue) against 0.999999 - not 0.999 - of
the queue's bandwidth; the check fires iff no scanned flow carries an
uninitialized (0, 0) shaper and some such load exceeds the threshold; and when
it fires the request is rejected immediately with the engine state untouched:
no client is added and no LP is run. -/
theorem C4_fast_first_fit (lp : LPOracle) (lat : LatOracle) (st : Engine)
    (req : List ClientReq) (hval : checkClientInfos st req = .success) :
    (checkOverload st req = true ↔
      ((∀ cr ∈ req, cr.admitted ≠ some true → ∀ fr ∈ cr.flows,
          ∀ qn ∈ fr.queues, ∀ fi ∈ (queueOfName st qn).flows,
            ¬ uninitShaper st fi.1) ∧
        ∃ cr ∈ req, cr.admitted ≠ some true ∧ ∃ fr ∈ cr.flows,
          ∃ qn ∈ fr.queues,
            (999999 / 1000000) * (queueOfName st qn).bandwidth <
              queueLoad st (lastSlope fr) qn)) ∧
    (checkOverload st req = true →
      addClientsSvc lp lat st req true = (st, .success, false)) := by
  refine ⟨checkOverload_iff st req, fun hov => ?_⟩
  simp [addClientsSvc, hval, hov]

def stC4 : Engine :=
  ⟨[(0, ⟨"Q", 1, [(0, 0)]⟩)],
   [(0, ⟨"FA", 0, [0], 0, 9995/10000, 1, 0⟩)],
   [(0, ⟨"A", 1, [0], 0⟩)], 1, 1, ∅⟩

def stC4u : Engine :=
  ⟨[(0, ⟨"Q", 1, [(0, 0)]⟩)],
   [(0, ⟨"FA", 0, [0], 0, 0, 0, 0⟩)],
   [(0, ⟨"A", 1, [0], 0⟩)], 1, 1, ∅⟩

def crB : ClientReq := ⟨"B", 1, none, none, [⟨"FB", ["Q"], [(0, 1, 1/10000)], 0⟩]⟩

def crB2 : ClientReq := ⟨"B", 1, none, none, [⟨"FB", ["Q"], [(0, 1, 1/100)], 0⟩]⟩

def crC : ClientReq := ⟨"C", 1, none, none, [⟨"FC", ["Q"], [(0, 1, 10)], 0⟩]⟩

set_option maxRecDepth 100000 in
/-- Counterexample to claim C4 as stated: on a queue of bandwidth 1 whose
existing flow holds shaper rate 0.9995, a new flow of rate 0.0001 brings the
load to 0.9996, above the claimed 0.999 threshold, yet checkOverload does not
fire (the source threshold is 0.999999) and the client is added and admitted;
moreover, on a queue whose existing flow carries the uninitialized (0, 0)
shaper curve, even a load of 10 on bandwidth 1 is not rejected, because
checkOverload returns false outright on an uninitialized shaper. -/
theorem C4_counterexample :
    ((999 / 1000 : ℚ) * (queueOfName stC4 "Q").bandwidth <
        queueLoad stC4 (lastSlope ⟨"FB", ["Q"], [(0, 1, 1/10000)], 0⟩) "Q") ∧
    checkOverload stC4 [crB] = false ∧
    (addClientsSvc lp0 lat0 stC4 [crB] true).2.2 = true ∧
    ((addClientsSvc lp0 lat0 stC4 [crB] true).1.clients.map Prod.fst = [0, 1]) ∧
    ((999 / 1000 : ℚ) * (queueOfName stC4u "Q").bandwidth <
        queueLoad stC4u (lastSlope ⟨"FC", ["Q"], [(0, 1, 10)], 0⟩) "Q") ∧
    checkOverload stC4u [crC] = false := by
  refine ⟨?_, ?_, ?_, ?_, ?_, ?_⟩
  · exact of_decide_eq_true (by with_unfolding_all rfl)
  · with_unfolding_all rfl
  · with_unfolding_all rfl
  · with_unfolding_all rfl
  · exact of_decide_eq_true (by with_unfolding_all rfl)
  · with_unfolding_all rfl

/-- Witness for claim C4 at a concrete engine where the overload check fires:
the queue's load 0.9995 + 0.01 exceeds 0.999999 of bandwidth 1 and the
request is rejected with the state untouched. -/
theorem C4_fast_first_fit_witness :
    checkClientInfos stC4 [crB2] = AdmissionStatus.success ∧
    addClientsSvc lp0 lat0 stC4 [crB2] true = (stC4, .success, false) := by
  have hv : checkClientInfos stC4 [crB2] = AdmissionStatus.success := by
    with_unfolding_all rfl
  exact ⟨hv, (C4_fast_first_fit lp0 lat0 stC4 [crB2] hv).2
    (by with_unfolding_all rfl)⟩

/-!
## Claim C1: rollback on rejection

The rejection cleanup of admission_controller_add_clients_svc deletes the
added clients through WorkloadCompactor::delClient, which consumes only the
deletion skeleton of the engine: the queue table, the flow key list, and each
client's flow-id list.  The latency/SLO check rewrites shaper curves,
priorities and cached latencies, but preserves that skeleton.
-/

lemma map_fst_if_update {α : Type} (l : List (ℕ × α)) (fid : ℕ) (f : α → α) :
    (l.map (fun p => if p.1 = fid then (p.1, f p.2) else p)).map Prod.fst =
      l.map Prod.fst := by
  induction l with
  | nil => rfl
  | cons p rest ih =>
    by_cases hp : p.1 = fid <;> simp [hp, ih]

lemma map_keyFlowIds_update (l : List (ℕ × EClient)) (cid : ℕ)
    (f : EClient → EClient) (hf : ∀ c, (f c).flowIds = c.flowIds) :
    (l.map (fun p => if p.1 = cid then (p.1, f p.2) else p)).map
        (fun p => (p.1, p.2.flowIds)) =
      l.map (fun p => (p.1, p.2.flowIds)) := by
  induction l with
  | nil => rfl
  | cons p rest ih =>
    by_cases hp : p.1 = cid <;> simp [hp, ih, hf]

/-- The deletion skeleton of two engine states coincides: the queue table
verbatim, the flow key list, and the client key list with each client's
flow-id list. -/
def SkelEq (a b : Engine) : Prop :=
  a.queues = b.queues ∧
  a.flows.map Prod.fst = b.flows.map Prod.fst ∧
  a.clients.map (fun p => (p.1, p.2.flowIds)) =
    b.clients.map (fun p => (p.1, p.2.flowIds))

lemma SkelEq.rfl (a : Engine) : SkelEq a a := ⟨Eq.refl _, Eq.refl _, Eq.refl _⟩

lemma SkelEq.trans {a b c : Engine} (h1 : SkelEq a b) (h2 : SkelEq b c) :
    SkelEq a c :=
  ⟨h1.1.trans h2.1, h1.2.1.trans h2.2.1, h1.2.2.trans h2.2.2⟩

lemma skel_updateFlowE (st : Engine) (fid : ℕ) (f : EFlow → EFlow) :
    SkelEq (updateFlowE st fid f) st :=
  ⟨Eq.refl _, map_fst_if_update _ _ _, Eq.refl _⟩

lemma skel_updateClientE (st : Engine) (cid : ℕ) (f : EClient → EClient)
    (hf : ∀ c, (f c).flowIds = c.flowIds) :
    SkelEq (updateClientE st cid f) st :=
  ⟨Eq.refl _, Eq.refl _, map_keyFlowIds_update _ _ _ hf⟩

lemma skel_foldl {β : Type} (g : Engine → β → Engine)
    (h : ∀ st1 b, SkelEq (g st1 b) st1) :
    ∀ (l : List β) (st1 : Engine), SkelEq (l.foldl g st1) st1 := by
  intro l
  induction l with
  | nil => intro st1; exact SkelEq.rfl st1
  | cons b rest ih =>
    intro st1
    exact SkelEq.trans (ih (g st1 b)) (h st1 b)

lemma skel_foldlPair {β : Type} (g : Engine × Bool → β → Engine × Bool)
    (h : ∀ ab b, SkelEq (g ab b).1 ab.1) :
    ∀ (l : List β) (ab : Engine × Bool), SkelEq (l.foldl g ab).1 ab.1 := by
  intro l
  induction l with
  | nil => intro ab; exact SkelEq.rfl ab.1
  | cons b rest ih =>
    intro ab
    exact SkelEq.trans (ih (g ab b)) (h ab b)

lemma skel_writeFlowBack (sol : Option (ℕ → ℚ × ℚ)) (pri : ℕ) (st : Engine)
    (fid : ℕ) : SkelEq (writeFlowBack sol pri st fid) st :=
  skel_updateFlowE st fid _

lemma skel_writeBackGroup (sol : Option (ℕ → ℚ × ℚ)) (slos : List ℚ)
    (st : Engine) (grp : Finset ℕ) : SkelEq (writeBackGroup sol slos st grp) st := by
  unfold writeBackGroup
  exact skel_foldl _ (fun st1 cid =>
    skel_foldl _ (fun st2 fid => skel_writeFlowBack sol _ st2 fid) _ st1) _ st

lemma skel_optimizeGroup (lp : LPOracle) (st : Engine) (grp : Finset ℕ) :
    SkelEq (optimizeGroup lp st grp).1 st := by
  unfold optimizeGroup
  cases lp st grp <;> exact skel_writeBackGroup _ _ st grp

lemma skel_calcShaperParameters (lp : LPOracle) (st : Engine) :
    SkelEq (calcShaperParameters lp st).1 st := by
  unfold calcShaperParameters
  dsimp only
  exact SkelEq.trans
    (skel_foldlPair
      (fun acc grp => ((optimizeGroup lp acc.1 grp).1, acc.2 && (optimizeGroup lp acc.1 grp).2))
      (fun ab grp => skel_optimizeGroup lp ab.1 grp) _ _)
    ⟨Eq.refl _, Eq.refl _, Eq.refl _⟩

lemma skel_dncCalc (lat : LatOracle) (st : Engine) (fid : ℕ) :
    SkelEq (dncCalcFlowLatencyE lat st fid) st :=
  skel_updateFlowE st fid _

lemma skel_wcCalcFlowLatency (lp : LPOracle) (lat : LatOracle) (st : Engine)
    (fid : ℕ) : SkelEq (wcCalcFlowLatency lp lat st fid).1 st := by
  unfold wcCalcFlowLatency
  dsimp only
  split
  · exact skel_dncCalc lat st fid
  · exact SkelEq.trans (skel_dncCalc lat _ fid)
      (SkelEq.trans ⟨Eq.refl _, Eq.refl _, Eq.refl _⟩
        (skel_calcShaperParameters lp st))

lemma skel_calcClientLatency (lp : LPOracle) (lat : LatOracle) (st : Engine)
    (cid : ℕ) : SkelEq (calcClientLatency lp lat st cid) st := by
  unfold calcClientLatency
  dsimp only
  exact SkelEq.trans
    (skel_updateClientE _ cid _ (fun c => Eq.refl _))
    (skel_foldl _ (fun st2 fid => skel_wcCalcFlowLatency lp lat st2 fid) _ st)

lemma skel_checkLatencyAdded (lp : LPOracle) (lat : LatOracle) :
    ∀ (l : List ℕ) (st : Engine) (aff : Finset (ℕ × ℕ)),
      SkelEq (checkLatencyAdded lp lat l st aff).1 st := by
  intro l
  induction l with
  | nil => intro st aff; exact SkelEq.rfl st
  | cons cid rest ih =>
    intro st aff
    unfold checkLatencyAdded
    dsimp only
    split
    · exact skel_calcClientLatency lp lat st cid
    · exact SkelEq.trans (ih _ _) (skel_calcClientLatency lp lat st cid)

lemma skel_checkLatencyAffected (lp : LPOracle) (lat : LatOracle)
    (clientIds : Finset ℕ) :
    ∀ (l : List ℕ) (st : Engine),
      SkelEq (checkLatencyAffected lp lat clientIds l st).1 st := by
  intro l
  induction l with
  | nil => intro st; exact SkelEq.rfl st
  | cons cid rest ih =>
    intro st
    unfold checkLatencyAffected
    dsimp only
    split
    · exact ih st
    · split
      · exact skel_calcClientLatency lp lat st cid
      · exact SkelEq.trans (ih _) (skel_calcClientLatency lp lat st cid)

lemma skel_checkLatency (lp : LPOracle) (lat : LatOracle) (st : Engine)
    (cids : Finset ℕ) : SkelEq (checkLatency lp lat st cids).1 st := by
  unfold checkLatency
  dsimp only
  split
  · exact SkelEq.trans (skel_checkLatencyAffected lp lat cids _ _)
      (skel_checkLatencyAdded lp lat _ st ∅)
  · exact skel_checkLatencyAdded lp lat _ st ∅

/-- The flow-id list of a client record. -/
def flowIdsE (st : Engine) (cid : ℕ) : List ℕ := (getClientE st cid).flowIds

/-- Whether a flow id belongs to one of the listed clients' flow lists: the
combined removal predicate of the rejection cleanup's delClient calls. -/
def coveredB (st : Engine) (cl : List ℕ) (fid : ℕ) : Bool :=
  cl.any (fun cid => (flowIdsE st cid).contains fid)

lemma any_congr {α : Type} (l : List α) (f g : α → Bool)
    (h : ∀ a ∈ l, f a = g a) : l.any f = l.any g := by
  induction l with
  | nil => rfl
  | cons a rest ih =>
    simp only [List.any_cons]
    rw [h a (List.mem_cons_self _ _), ih (fun b hb => h b (List.mem_cons_of_mem _ hb))]

lemma coveredB_cons (st : Engine) (c : ℕ) (rest : List ℕ) (fid : ℕ) :
    coveredB st (c :: rest) fid =
      ((flowIdsE st c).contains fid || coveredB st rest fid) := by
  unfold coveredB
  rw [List.any_cons]

lemma alookup_filter_ne {α : Type} (l : List (ℕ × α)) (c k : ℕ) (hk : k ≠ c) :
    alookup (l.filter (fun p => p.1 != c)) k = alookup l k := by
  induction l with
  | nil => rfl
  | cons p rest ih =>
    by_cases hp : p.1 = c
    · have hck : ¬ c = k := fun he => hk he.symm
      have hpk : ¬ p.1 = k := by omega
      simp [List.filter_cons, hp, alookup_cons, hpk, hck, ih]
    · by_cases hpk : p.1 = k
      · simp [List.filter_cons, hp, alookup_cons, hpk, hk]
      · simp [List.filter_cons, hp, alookup_cons, hpk, hk, ih]

lemma wcDelClient_eq (st : Engine) (cid : ℕ) :
    (wcDelClient st cid).queues = st.queues.map (fun p => (p.1,
        { p.2 with flows := p.2.flows.filter (fun fi => !((flowIdsE st cid).contains fi.1)) })) ∧
    (wcDelClient st cid).flows = st.flows.filter
        (fun p => !((flowIdsE st cid).contains p.1)) ∧
    (wcDelClient st cid).clients = st.clients.filter (fun p => p.1 != cid) :=
  ⟨Eq.refl _, Eq.refl _, Eq.refl _⟩

lemma getClientE_wcDelClient_ne (st : Engine) (c cid : ℕ) (h : cid ≠ c) :
    getClientE (wcDelClient st c) cid = getClientE st cid := by
  unfold getClientE
  rw [(wcDelClient_eq st c).2.2, alookup_filter_ne _ _ _ h]

lemma delFold_eq (cl : List ℕ) :
    ∀ st, cl.Nodup →
      (cl.foldl wcDelClient st).clients =
          st.clients.filter (fun p => !(cl.contains p.1)) ∧
      (cl.foldl wcDelClient st).flows =
          st.flows.filter (fun p => !(coveredB st cl p.1)) ∧
      (cl.foldl wcDelClient st).queues =
          st.queues.map (fun p => (p.1,
            { p.2 with flows := p.2.flows.filter (fun fi => !(coveredB st cl fi.1)) })) := by
  induction cl with
  | nil =>
    intro st _
    refine ⟨?_, ?_, ?_⟩
    · simp
    · simp [coveredB]
    · have hfun : (fun (p : ℕ × EQueue) => (p.1,
          { p.2 with flows := p.2.flows.filter (fun fi => !(coveredB st [] fi.1)) })) =
          fun p => p := by
        funext p
        have hfl : p.2.flows.filter (fun fi => !(coveredB st [] fi.1)) = p.2.flows := by
          simp [coveredB]
        rw [hfl]
      rw [hfun]
      simp
  | cons c rest ih =>
    intro st hnd
    obtain ⟨hcr, hndr⟩ := List.nodup_cons.mp hnd
    rw [List.foldl_cons]
    have hfid : ∀ cid ∈ rest, flowIdsE (wcDelClient st c) cid = flowIdsE st cid := by
      intro cid hm
      unfold flowIdsE
      rw [getClientE_wcDelClient_ne st c cid (fun he => hcr (he ▸ hm))]
    have hcov : ∀ fid, coveredB (wcDelClient st c) rest fid = coveredB st rest fid := by
      intro fid
      unfold coveredB
      exact any_congr _ _ _ (fun cid hm => by rw [hfid cid hm])
    obtain ⟨ihc, ihf, ihq⟩ := ih (wcDelClient st c) hndr
    obtain ⟨hq, hf, hc⟩ := wcDelClient_eq st c
    refine ⟨?_, ?_, ?_⟩
    · rw [ihc, hc, List.filter_filter]
      congr 1
      funext p
      by_cases hx : p.1 = c <;>
        simp [List.contains_cons, Bool.not_or, bne, Bool.and_comm, hx]
    · rw [ihf, hf]
      have hpred : (fun (p : ℕ × EFlow) => !(coveredB (wcDelClient st c) rest p.1)) =
          fun p => !(coveredB st rest p.1) := by
        funext p
        rw [hcov]
      rw [hpred, List.filter_filter]
      congr 1
      funext p
      rw [coveredB_cons, Bool.not_or, Bool.and_comm]
    · rw [ihq, hq, List.map_map]
      have hfun : ((fun (p : ℕ × EQueue) => (p.1,
            { p.2 with flows := p.2.flows.filter (fun fi => !(coveredB (wcDelClient st c) rest fi.1)) })) ∘
          (fun (p : ℕ × EQueue) => (p.1,
            { p.2 with flows := p.2.flows.filter (fun fi => !((flowIdsE st c).contains fi.1)) }))) =
          fun (p : ℕ × EQueue) => (p.1,
            { p.2 with flows := p.2.flows.filter (fun fi => !(coveredB st (c :: rest) fi.1)) }) := by
        funext p
        dsimp only [Function.comp]
        rw [List.filter_filter]
        have harg : (fun (a : ℕ × ℕ) =>
            !coveredB (wcDelClient st c) rest a.1 && !(flowIdsE st c).contains a.1) =
            fun (fi : ℕ × ℕ) => !coveredB st (c :: rest) fi.1 := by
          funext fi
          rw [hcov, coveredB_cons, Bool.not_or, Bool.and_comm]
        rw [harg]
      rw [hfun]

lemma alookup_eq_none {α : Type} (l : List (ℕ × α)) (k : ℕ)
    (h : ∀ p ∈ l, p.1 ≠ k) : alookup l k = none := by
  induction l with
  | nil => rfl
  | cons p rest ih =>
    rw [alookup_cons, if_neg (h p (List.mem_cons_self _ _))]
    exact ih (fun q hq => h q (List.mem_cons_of_mem _ hq))

lemma alookup_append_ne {α : Type} (l1 l2 : List (ℕ × α)) (k : ℕ)
    (h : ∀ p ∈ l2, p.1 ≠ k) : alookup (l1 ++ l2) k = alookup l1 k := by
  induction l1 with
  | nil =>
    rw [List.nil_append, alookup_eq_none l2 k h]
    rfl
  | cons p rest ih =>
    rw [List.cons_append, alookup_cons, alookup_cons]
    split
    · rfl
    · exact ih

lemma alookup_append_self {α : Type} (l : List (ℕ × α)) (k : ℕ) (v : α)
    (h : ∀ p ∈ l, p.1 ≠ k) : alookup (l ++ [(k, v)]) k = some v :=
  alookup_append_fresh l k v (alookup_eq_none l k h)

/-- One queue table extends another: same keys, names and bandwidths in the
same order, each per-queue flow set extended at the end by pairs whose flow
ids satisfy P. -/
def QExtP (P : ℕ → Prop) (qs1 qs2 : List (ℕ × EQueue)) : Prop :=
  List.Forall₂ (fun p q => p.1 = q.1 ∧ q.2.name = p.2.name ∧
    q.2.bandwidth = p.2.bandwidth ∧
    ∃ ext, q.2.flows = p.2.flows ++ ext ∧ ∀ fi ∈ ext, P fi.1) qs1 qs2

lemma QExtP_refl (P : ℕ → Prop) (qs : List (ℕ × EQueue)) : QExtP P qs qs := by
  induction qs with
  | nil => exact List.Forall₂.nil
  | cons p rest ih =>
    refine List.Forall₂.cons ⟨rfl, rfl, rfl, [], (List.append_nil _).symm, ?_⟩ ih
    intro fi hm
    cases hm

lemma QExtP_trans {P : ℕ → Prop} {a b c : List (ℕ × EQueue)}
    (h1 : QExtP P a b) (h2 : QExtP P b c) : QExtP P a c := by
  induction h1 generalizing c with
  | nil =>
    cases h2
    exact List.Forall₂.nil
  | cons hab h1rest ih =>
    cases h2 with
    | cons hbc h2rest =>
      refine List.Forall₂.cons ?_ (ih h2rest)
      obtain ⟨hk1, hn1, hb1, e1, he1, hp1⟩ := hab
      obtain ⟨hk2, hn2, hb2, e2, he2, hp2⟩ := hbc
      refine ⟨hk1.trans hk2, hn2.trans hn1, hb2.trans hb1, e1 ++ e2, ?_, ?_⟩
      · rw [he2, he1, List.append_assoc]
      · intro fi hm
        rcases List.mem_append.mp hm with hm2 | hm2
        · exact hp1 fi hm2
        · exact hp2 fi hm2

lemma QExtP_mono {P Q : ℕ → Prop} (hpq : ∀ n, P n → Q n) :
    ∀ {a b}, QExtP P a b → QExtP Q a b := by
  intro a b h
  induction h with
  | nil => exact List.Forall₂.nil
  | cons hab hrest ih =>
    obtain ⟨hk, hn, hb, e, he, hp⟩ := hab
    exact List.Forall₂.cons ⟨hk, hn, hb, e, he, fun fi hm => hpq _ (hp fi hm)⟩ ih

lemma QExtP_flows_bound {P Q : ℕ → Prop} (h2 : ∀ n, P n → Q n) :
    ∀ {qs1 qs2}, QExtP P qs1 qs2 →
      (∀ p ∈ qs1, ∀ fi ∈ p.2.flows, Q fi.1) →
      ∀ p ∈ qs2, ∀ fi ∈ p.2.flows, Q fi.1 := by
  intro qs1 qs2 h
  induction h with
  | nil =>
    intro _ p hp
    cases hp
  | cons hab hrest ih =>
    intro h1 p hp
    rcases List.mem_cons.mp hp with rfl | hp2
    · obtain ⟨hk, hn, hb, e, he, hpe⟩ := hab
      intro fi hfi
      rw [he] at hfi
      rcases List.mem_append.mp hfi with hm | hm
      · exact h1 _ (List.mem_cons_self _ _) fi hm
      · exact h2 _ (hpe fi hm)
    · exact ih (fun q hq => h1 q (List.mem_cons_of_mem _ hq)) p hp2

lemma QExtP_queueAppendFlow (qs : List (ℕ × EQueue)) (qid fid idx : ℕ) :
    QExtP (fun n => n = fid) qs (queueAppendFlow qs qid fid idx) := by
  unfold queueAppendFlow
  induction qs with
  | nil => exact List.Forall₂.nil
  | cons p rest ih =>
    rw [List.map_cons]
    refine List.Forall₂.cons ?_ ih
    by_cases hp : p.1 = qid
    · rw [if_pos hp]
      refine ⟨rfl, rfl, rfl, [(fid, idx)], rfl, ?_⟩
      intro fi hm
      rw [List.mem_singleton] at hm
      subst hm
      rfl
    · rw [if_neg hp]
      refine ⟨rfl, rfl, rfl, [], (List.append_nil _).symm, ?_⟩
      intro fi hm
      cases hm

lemma QExtP_wireFlow (fid : ℕ) (qids : List ℕ) (qs : List (ℕ × EQueue)) :
    QExtP (fun n => n = fid) qs (wireFlow qs fid qids) := by
  unfold wireFlow
  generalize qids.enum = l
  induction l generalizing qs with
  | nil => exact QExtP_refl _ qs
  | cons p rest ih =>
    rw [List.foldl_cons]
    exact QExtP_trans (QExtP_queueAppendFlow qs p.2 fid p.1) (ih _)

lemma ncAddFlow_spec (stX : Engine) (cid : ℕ) (fr : FlowReq) :
    (ncAddFlow stX cid fr).2 = stX.nextFlowId ∧
    (ncAddFlow stX cid fr).1.clients = stX.clients ∧
    (ncAddFlow stX cid fr).1.nextClientId = stX.nextClientId ∧
    (ncAddFlow stX cid fr).1.nextFlowId = stX.nextFlowId + 1 ∧
    (∃ v, (ncAddFlow stX cid fr).1.flows = stX.flows ++ [(stX.nextFlowId, v)]) ∧
    QExtP (fun n => n = stX.nextFlowId) stX.queues (ncAddFlow stX cid fr).1.queues :=
  ⟨rfl, rfl, rfl, rfl, ⟨_, rfl⟩, QExtP_wireFlow _ _ _⟩

lemma addFlowsFold_spec (cid : ℕ) :
    ∀ (frs : List FlowReq) (stX : Engine) (fl0 : List ℕ),
      ∃ st2 fl1,
        frs.foldl (fun (acc : Engine × List ℕ) fr =>
          let r2 := ncAddFlow acc.1 cid fr
          (r2.1, acc.2 ++ [r2.2])) (stX, fl0) = (st2, fl0 ++ fl1) ∧
        st2.clients = stX.clients ∧
        st2.nextClientId = stX.nextClientId ∧
        stX.nextFlowId ≤ st2.nextFlowId ∧
        (∀ fid ∈ fl1, stX.nextFlowId ≤ fid ∧ fid < st2.nextFlowId) ∧
        (∃ newF, st2.flows = stX.flows ++ newF ∧ ∀ p ∈ newF, p.1 ∈ fl1) ∧
        QExtP (fun n => n ∈ fl1) stX.queues st2.queues := by
  intro frs
  induction frs with
  | nil =>
    intro stX fl0
    refine ⟨stX, [], ?_, rfl, rfl, le_refl _, ?_, ⟨[], (List.append_nil _).symm, ?_⟩,
      QExtP_refl _ _⟩
    · rw [List.foldl_nil, List.append_nil]
    · intro fid hm
      cases hm
    · intro p hm
      cases hm
  | cons fr rest ih =>
    intro stX fl0
    rw [List.foldl_cons]
    dsimp only
    obtain ⟨hfid2, hcl, hncid, hnfid, ⟨v, hflows⟩, hqext⟩ := ncAddFlow_spec stX cid fr
    obtain ⟨st2, fl1, hfold, h1, h2, h3, h4, ⟨newF, h5, h6⟩, h7⟩ :=
      ih (ncAddFlow stX cid fr).1 (fl0 ++ [(ncAddFlow stX cid fr).2])
    refine ⟨st2, (ncAddFlow stX cid fr).2 :: fl1, ?_, h1.trans hcl, h2.trans hncid,
      ?_, ?_, ?_, ?_⟩
    · rw [hfold, List.append_assoc, List.singleton_append]
    · rw [hnfid] at h3
      omega
    · intro fid hm
      rcases List.mem_cons.mp hm with rfl | hm2
      · rw [hnfid] at h3
        rw [hfid2]
        exact ⟨le_refl _, by omega⟩
      · have hb := h4 fid hm2
        rw [hnfid] at hb
        omega
    · refine ⟨(stX.nextFlowId, v) :: newF, ?_, ?_⟩
      · rw [h5, hflows, List.append_assoc, List.singleton_append]
      · intro p hm
        rcases List.mem_cons.mp hm with rfl | hm2
        · rw [hfid2]
          exact List.mem_cons_self _ _
        · exact List.mem_cons_of_mem _ (h6 p hm2)
    · refine QExtP_trans (QExtP_mono ?_ hqext) (QExtP_mono ?_ h7)
      · intro n hn
        rw [hn, ← hfid2]
        exact List.mem_cons_self _ _
      · intro n hn
        exact List.mem_cons_of_mem _ hn

lemma ncAddClient_spec (stA : Engine) (cr : ClientReq)
    (hwfc : ∀ p ∈ stA.clients, p.1 < stA.nextClientId) :
    ∃ fl1 c1,
      (ncAddClient stA cr).2 = stA.nextClientId ∧
      (ncAddClient stA cr).1.nextClientId = stA.nextClientId + 1 ∧
      stA.nextFlowId ≤ (ncAddClient stA cr).1.nextFlowId ∧
      (ncAddClient stA cr).1.clients = stA.clients ++ [(stA.nextClientId, c1)] ∧
      flowIdsE (ncAddClient stA cr).1 stA.nextClientId = fl1 ∧
      (∀ fid ∈ fl1, stA.nextFlowId ≤ fid ∧
        fid < (ncAddClient stA cr).1.nextFlowId) ∧
      (∃ newF, (ncAddClient stA cr).1.flows = stA.flows ++ newF ∧
        ∀ p ∈ newF, p.1 ∈ fl1) ∧
      QExtP (fun n => n ∈ fl1) stA.queues (ncAddClient stA cr).1.queues := by
  obtain ⟨st2, fl1, hfold, h1, h2, h3, h4, ⟨newF, h5, h6⟩, h7⟩ :=
    addFlowsFold_spec stA.nextClientId cr.flows stA []
  have hrun : ncAddClient stA cr =
      ({ st2 with
         clients := st2.clients ++
           [(stA.nextClientId, ⟨cr.name, cr.slo, [] ++ fl1, 0⟩)]
         nextClientId := stA.nextClientId + 1 }, stA.nextClientId) := by
    unfold ncAddClient
    dsimp only
    rw [hfold]
  have hcl2 : (ncAddClient stA cr).1.clients =
      stA.clients ++ [(stA.nextClientId, ⟨cr.name, cr.slo, [] ++ fl1, 0⟩)] := by
    rw [hrun]
    dsimp only
    rw [h1]
  refine ⟨[] ++ fl1, ⟨cr.name, cr.slo, [] ++ fl1, 0⟩, ?_, ?_, ?_, hcl2, ?_, ?_, ?_, ?_⟩
  · rw [hrun]
  · rw [hrun]
  · rw [hrun]
    exact h3
  · unfold flowIdsE getClientE
    rw [hcl2, alookup_append_self]
    · rfl
    · intro p hp
      have := hwfc p hp
      omega
  · intro fid hm
    rw [List.nil_append] at hm
    have hb := h4 fid hm
    rw [hrun]
    exact hb
  · refine ⟨newF, ?_, ?_⟩
    · rw [hrun]
      dsimp only
      rw [h5]
    · intro p hm
      rw [List.nil_append]
      exact h6 p hm
  · rw [hrun]
    dsimp only
    exact QExtP_mono (fun n hn => by rw [List.nil_append]; exact hn) h7

/-- Well-formed engine: every table key and every queue-registered flow id is
below the corresponding fresh-id counter.  The C++ maintains this by handing
out ids from increasing counters. -/
def EngineWF (st : Engine) : Prop :=
  (∀ p ∈ st.flows, p.1 < st.nextFlowId) ∧
  (∀ p ∈ st.clients, p.1 < st.nextClientId) ∧
  (∀ p ∈ st.queues, ∀ fi ∈ p.2.flows, fi.1 < st.nextFlowId)

/-- The extension relation produced by the client-adding loop: the tables of
st1 extend those of st0 by records for the added client ids, every added id is
fresh, and every new flow id is owned by an added client. -/
def AddExt (st0 st1 : Engine) (cids : Finset ℕ) : Prop :=
  (∃ newC, st1.clients = st0.clients ++ newC ∧ ∀ p ∈ newC, p.1 ∈ cids) ∧
  (∀ cid ∈ cids, st0.nextClientId ≤ cid ∧ cid < st1.nextClientId) ∧
  (∃ newF, st1.flows = st0.flows ++ newF ∧
    ∀ p ∈ newF, ∃ cid ∈ cids, p.1 ∈ flowIdsE st1 cid) ∧
  (∀ cid ∈ cids, ∀ fid ∈ flowIdsE st1 cid,
    st0.nextFlowId ≤ fid ∧ fid < st1.nextFlowId) ∧
  QExtP (fun n => ∃ cid ∈ cids, n ∈ flowIdsE st1 cid) st0.queues st1.queues ∧
  st0.nextFlowId ≤ st1.nextFlowId ∧ st0.nextClientId ≤ st1.nextClientId

lemma AddExt_rfl (st : Engine) : AddExt st st ∅ := by
  refine ⟨⟨[], (List.append_nil _).symm, ?_⟩, ?_, ⟨[], (List.append_nil _).symm, ?_⟩,
    ?_, QExtP_refl _ _, le_refl _, le_refl _⟩
  · intro p hm
    cases hm
  · intro cid hm
    exact absurd hm (Finset.not_mem_empty cid)
  · intro p hm
    cases hm
  · intro cid hm
    exact absurd hm (Finset.not_mem_empty cid)

lemma AddExt_step (st0 stA : Engine) (cids : Finset ℕ) (cr : ClientReq)
    (hwfA : EngineWF stA) (hext : AddExt st0 stA cids) :
    AddExt st0 (wcAddClient stA cr).1 (insert (wcAddClient stA cr).2 cids) ∧
    EngineWF (wcAddClient stA cr).1 := by
  obtain ⟨fl1, c1, hcid, hncid, hnf, hclients, hfids, hbnd, ⟨newF, hflows, hmem⟩, hq⟩ :=
    ncAddClient_spec stA cr hwfA.2.1
  have hBclients : (wcAddClient stA cr).1.clients =
      stA.clients ++ [(stA.nextClientId, c1)] := hclients
  have hBflows : (wcAddClient stA cr).1.flows = stA.flows ++ newF := hflows
  have hBqueues : QExtP (fun n => n ∈ fl1) stA.queues (wcAddClient stA cr).1.queues := hq
  have hBncid : (wcAddClient stA cr).1.nextClientId = stA.nextClientId + 1 := hncid
  have hBnf : stA.nextFlowId ≤ (wcAddClient stA cr).1.nextFlowId := hnf
  have hBcid : (wcAddClient stA cr).2 = stA.nextClientId := hcid
  have hBfids : flowIdsE (wcAddClient stA cr).1 stA.nextClientId = fl1 := hfids
  have hBbnd : ∀ fid ∈ fl1, stA.nextFlowId ≤ fid ∧
      fid < (wcAddClient stA cr).1.nextFlowId := hbnd
  obtain ⟨⟨newC0, hC0, hC0m⟩, hicid, ⟨newF0, hF0, hF0m⟩, hbnd0, hq0, hle1, hle2⟩ := hext
  have htrans : ∀ cid ∈ cids,
      flowIdsE (wcAddClient stA cr).1 cid = flowIdsE stA cid := by
    intro cid hm
    have hlt := (hicid cid hm).2
    unfold flowIdsE getClientE
    rw [hBclients, alookup_append_ne]
    intro p hp
    rw [List.mem_singleton] at hp
    subst hp
    dsimp only
    omega
  have hcidsB : ∀ cid ∈ insert (wcAddClient stA cr).2 cids,
      cid = stA.nextClientId ∨ cid ∈ cids := by
    intro cid hm
    rcases Finset.mem_insert.mp hm with h | h
    · left
      rw [h, hBcid]
    · right
      exact h
  refine ⟨⟨?_, ?_, ?_, ?_, ?_, ?_, ?_⟩, ?_, ?_, ?_⟩
  · refine ⟨newC0 ++ [(stA.nextClientId, c1)], ?_, ?_⟩
    · rw [hBclients, hC0, List.append_assoc]
    · intro p hm
      rcases List.mem_append.mp hm with hm2 | hm2
      · exact Finset.mem_insert_of_mem (hC0m p hm2)
      · rw [List.mem_singleton] at hm2
        subst hm2
        rw [← hBcid]
        exact Finset.mem_insert_self _ _
  · intro cid hm
    rcases hcidsB cid hm with rfl | h
    · rw [hBncid]
      exact ⟨hle2, by omega⟩
    · have := hicid cid h
      rw [hBncid]
      omega
  · refine ⟨newF0 ++ newF, ?_, ?_⟩
    · rw [hBflows, hF0, List.append_assoc]
    · intro p hm
      rcases List.mem_append.mp hm with hm2 | hm2
      · obtain ⟨cid, hcm, hfm⟩ := hF0m p hm2
        refine ⟨cid, Finset.mem_insert_of_mem hcm, ?_⟩
        rw [htrans cid hcm]
        exact hfm
      · refine ⟨(wcAddClient stA cr).2, Finset.mem_insert_self _ _, ?_⟩
        rw [hBcid, hBfids]
        exact hmem p hm2
  · intro cid hm fid hfm
    rcases hcidsB cid hm with rfl | h
    · rw [hBfids] at hfm
      have hb := hBbnd fid hfm
      exact ⟨le_trans hle1 hb.1, hb.2⟩
    · rw [htrans cid h] at hfm
      have hb := hbnd0 cid h fid hfm
      exact ⟨hb.1, lt_of_lt_of_le hb.2 hBnf⟩
  · refine QExtP_trans (QExtP_mono ?_ hq0) (QExtP_mono ?_ hBqueues)
    · intro n hn
      obtain ⟨cid, hcm, hfm⟩ := hn
      refine ⟨cid, Finset.mem_insert_of_mem hcm, ?_⟩
      rw [htrans cid hcm]
      exact hfm
    · intro n hn
      refine ⟨(wcAddClient stA cr).2, Finset.mem_insert_self _ _, ?_⟩
      rw [hBcid, hBfids]
      exact hn
  · exact le_trans hle1 hBnf
  · rw [hBncid]
    omega
  · intro p hm
    rw [hBflows] at hm
    rcases List.mem_append.mp hm with hm2 | hm2
    · exact lt_of_lt_of_le (hwfA.1 p hm2) hBnf
    · exact (hBbnd p.1 (hmem p hm2)).2
  · intro p hm
    rw [hBclients] at hm
    rcases List.mem_append.mp hm with hm2 | hm2
    · have := hwfA.2.1 p hm2
      rw [hBncid]
      omega
    · rw [List.mem_singleton] at hm2
      subst hm2
      rw [hBncid]
      omega
  · refine QExtP_flows_bound (fun n hn => (hBbnd n hn).2) hBqueues ?_
    intro p hm fi hfi
    exact lt_of_lt_of_le (hwfA.2.2 p hm fi hfi) hBnf

lemma addAllClients_spec (req : List ClientReq) :
    ∀ (st0 stA : Engine) (cids : Finset ℕ),
      EngineWF stA → AddExt st0 stA cids →
      AddExt st0
        (req.foldl (fun acc cr =>
          let r2 := wcAddClient acc.1 cr
          (r2.1, insert r2.2 acc.2)) (stA, cids)).1
        (req.foldl (fun acc cr =>
          let r2 := wcAddClient acc.1 cr
          (r2.1, insert r2.2 acc.2)) (stA, cids)).2 ∧
      EngineWF (req.foldl (fun acc cr =>
          let r2 := wcAddClient acc.1 cr
          (r2.1, insert r2.2 acc.2)) (stA, cids)).1 := by
  induction req with
  | nil =>
    intro st0 stA cids hwf hext
    exact ⟨hext, hwf⟩
  | cons cr rest ih =>
    intro st0 stA cids hwf hext
    rw [List.foldl_cons]
    dsimp only
    obtain ⟨hext2, hwf2⟩ := AddExt_step st0 stA cids cr hwf hext
    exact ih st0 _ _ hwf2 hext2

lemma map_fst_filter_key {α : Type} (l : List (ℕ × α)) (q : ℕ → Bool) :
    (l.filter (fun p => q p.1)).map Prod.fst = (l.map Prod.fst).filter q := by
  induction l with
  | nil => rfl
  | cons p rest ih =>
    cases hq : q p.1 <;> simp [List.filter_cons, hq, ih]

lemma map_fst_of_pairMapEq (l1 l2 : List (ℕ × EClient))
    (h : l1.map (fun p => (p.1, p.2.flowIds)) = l2.map (fun p => (p.1, p.2.flowIds))) :
    l1.map Prod.fst = l2.map Prod.fst := by
  have h2 := congrArg (List.map Prod.fst) h
  simpa [List.map_map, Function.comp] using h2

lemma alookup_flowIds_of_pairMapEq :
    ∀ (l1 l2 : List (ℕ × EClient)),
      l1.map (fun p => (p.1, p.2.flowIds)) = l2.map (fun p => (p.1, p.2.flowIds)) →
      ∀ cid, (alookup l1 cid).map (fun c => c.flowIds) =
        (alookup l2 cid).map (fun c => c.flowIds) := by
  intro l1
  induction l1 with
  | nil =>
    intro l2 h cid
    cases l2 with
    | nil => rfl
    | cons q t => exact absurd h (by simp)
  | cons p t1 ih =>
    intro l2 h cid
    cases l2 with
    | nil => exact absurd h (by simp)
    | cons q t2 =>
      simp only [List.map_cons, List.cons.injEq] at h
      obtain ⟨h1, h2⟩ := h
      have hk : p.1 = q.1 := congrArg (fun x : ℕ × List ℕ => x.1) h1
      have hfl : p.2.flowIds = q.2.flowIds := congrArg (fun x : ℕ × List ℕ => x.2) h1
      rw [alookup_cons, alookup_cons, hk]
      split
      · simp [hfl]
      · exact ih t2 h2 cid

lemma flowIdsE_congr (a b : Engine)
    (h : a.clients.map (fun p => (p.1, p.2.flowIds)) =
      b.clients.map (fun p => (p.1, p.2.flowIds))) (cid : ℕ) :
    flowIdsE a cid = flowIdsE b cid := by
  have h2 := alookup_flowIds_of_pairMapEq a.clients b.clients h cid
  unfold flowIdsE getClientE
  cases ha : alookup a.clients cid with
  | none =>
    cases hb : alookup b.clients cid with
    | none => rfl
    | some c =>
      rw [ha, hb] at h2
      exact Option.noConfusion h2
  | some c =>
    cases hb : alookup b.clients cid with
    | none =>
      rw [ha, hb] at h2
      exact Option.noConfusion h2
    | some c2 =>
      rw [ha, hb] at h2
      simp only [Option.map_some'] at h2
      show c.flowIds = c2.flowIds
      exact Option.some.inj h2

lemma contains_eq_false_of (l : List ℕ) (a : ℕ) (h : a ∉ l) : l.contains a = false := by
  induction l with
  | nil => rfl
  | cons b rest ih =>
    rw [List.contains_cons]
    have hne : (a == b) = false := by
      refine beq_eq_false_iff_ne.mpr ?_
      intro he
      subst he
      exact h (List.mem_cons_self _ _)
    rw [hne, ih (fun hm => h (List.mem_cons_of_mem _ hm))]
    rfl

lemma contains_eq_true_of (l : List ℕ) (a : ℕ) (h : a ∈ l) : l.contains a = true := by
  induction l with
  | nil => cases h
  | cons b rest ih =>
    rw [List.contains_cons]
    rcases List.mem_cons.mp h with rfl | hm
    · rw [beq_self_eq_true]
      rfl
    · rw [ih hm, Bool.or_true]

lemma any_eq_false_of {α : Type} (l : List α) (f : α → Bool)
    (h : ∀ a ∈ l, f a = false) : l.any f = false := by
  induction l with
  | nil => rfl
  | cons a rest ih =>
    rw [List.any_cons, h a (List.mem_cons_self _ _),
      ih (fun b hb => h b (List.mem_cons_of_mem _ hb))]
    rfl

lemma QExtP_filter_restore {P : ℕ → Prop} (pred : ℕ × ℕ → Bool) :
    ∀ {qs1 qs2}, QExtP P qs1 qs2 →
      (∀ p ∈ qs1, ∀ fi ∈ p.2.flows, pred fi = true) →
      (∀ fi : ℕ × ℕ, P fi.1 → pred fi = false) →
      qs2.map (fun p => (p.1, { p.2 with flows := p.2.flows.filter pred })) = qs1 := by
  intro qs1 qs2 h
  induction h with
  | nil =>
    intro _ _
    rfl
  | @cons p q l1 l2 hab hrest ih =>
    intro h1 h2
    rw [List.map_cons]
    obtain ⟨hk, hn, hb, e, he, hpe⟩ := hab
    have hq : q.2.flows.filter pred = p.2.flows := by
      rw [he, List.filter_append]
      have hl : p.2.flows.filter pred = p.2.flows :=
        List.filter_eq_self.mpr (fun fi hfi => h1 p (List.mem_cons_self _ _) fi hfi)
      have hr : e.filter pred = [] :=
        List.filter_eq_nil_iff.mpr (fun fi hfi => by
          rw [h2 fi (hpe fi hfi)]
          exact Bool.false_ne_true)
      rw [hl, hr, List.append_nil]
    have hhead : (q.1, ({ q.2 with flows := q.2.flows.filter pred } : EQueue)) = p := by
      have h3 : ({ q.2 with flows := q.2.flows.filter pred } : EQueue) =
          ⟨p.2.name, p.2.bandwidth, p.2.flows⟩ := by
        show (⟨q.2.name, q.2.bandwidth, q.2.flows.filter pred⟩ : EQueue) = _
        rw [hq, hn, hb]
      rw [h3, ← hk]
    rw [hhead, ih (fun r hr => h1 r (List.mem_cons_of_mem _ hr)) h2]

lemma addAllClients_ext (st : Engine) (req : List ClientReq) (hwf : EngineWF st) :
    AddExt st (addAllClients st req).1 (addAllClients st req).2 ∧
    EngineWF (addAllClients st req).1 :=
  addAllClients_spec req st st ∅ hwf (AddExt_rfl st)

lemma rollback_main (lp : LPOracle) (lat : LatOracle) (st : Engine)
    (req : List ClientReq) (hwf : EngineWF st) :
    (delAllClients
        (checkLatency lp lat (addAllClients st req).1 (addAllClients st req).2).1
        (addAllClients st req).2).clients.map Prod.fst = st.clients.map Prod.fst ∧
    (delAllClients
        (checkLatency lp lat (addAllClients st req).1 (addAllClients st req).2).1
        (addAllClients st req).2).flows.map Prod.fst = st.flows.map Prod.fst ∧
    (delAllClients
        (checkLatency lp lat (addAllClients st req).1 (addAllClients st req).2).1
        (addAllClients st req).2).queues = st.queues := by
  obtain ⟨⟨⟨newC, hC, hCm⟩, hicid, ⟨newF, hF, hFm⟩, hbnd, hq0, hle1, hle2⟩, hwf1⟩ :=
    addAllClients_ext st req hwf
  set st1 := (addAllClients st req).1 with hst1
  set cids := (addAllClients st req).2 with hcids
  set st2 := (checkLatency lp lat st1 cids).1 with hst2
  have hskel : SkelEq st2 st1 := skel_checkLatency lp lat st1 cids
  obtain ⟨hdc, hdf, hdq⟩ := delFold_eq (cids.sort (· ≤ ·)) st2 (Finset.sort_nodup _ _)
  have hdeleq : delAllClients st2 cids = (cids.sort (· ≤ ·)).foldl wcDelClient st2 := rfl
  have hfid12 : ∀ cid, flowIdsE st2 cid = flowIdsE st1 cid :=
    fun cid => flowIdsE_congr st2 st1 hskel.2.2 cid
  have hcovT : ∀ k, (∃ cid ∈ cids, k ∈ flowIdsE st1 cid) →
      coveredB st2 (cids.sort (· ≤ ·)) k = true := by
    rintro k ⟨cid, hcm, hkm⟩
    unfold coveredB
    refine List.any_eq_true.mpr ⟨cid, (Finset.mem_sort _).mpr hcm, ?_⟩
    rw [hfid12 cid]
    exact contains_eq_true_of _ _ hkm
  have hcovF : ∀ k, k < st.nextFlowId →
      coveredB st2 (cids.sort (· ≤ ·)) k = false := by
    intro k hk
    unfold coveredB
    refine any_eq_false_of _ _ ?_
    intro cid hcm
    rw [hfid12 cid]
    refine contains_eq_false_of _ _ ?_
    intro hkm
    have := hbnd cid ((Finset.mem_sort _).mp hcm) k hkm
    omega
  refine ⟨?_, ?_, ?_⟩
  · rw [hdeleq, hdc]
    have hmk : (st2.clients.filter
          (fun p => !((cids.sort (· ≤ ·)).contains p.1))).map Prod.fst =
        (st2.clients.map Prod.fst).filter
          (fun k => !((cids.sort (· ≤ ·)).contains k)) :=
      map_fst_filter_key st2.clients (fun k => !((cids.sort (· ≤ ·)).contains k))
    rw [hmk, map_fst_of_pairMapEq st2.clients st1.clients hskel.2.2, hC,
      List.map_append, List.filter_append]
    have hkeep : (st.clients.map Prod.fst).filter
        (fun k => !((cids.sort (· ≤ ·)).contains k)) = st.clients.map Prod.fst := by
      refine List.filter_eq_self.mpr ?_
      intro k hkm
      obtain ⟨p, hp, rfl⟩ := List.mem_map.mp hkm
      have h1 := hwf.2.1 p hp
      have h2 : p.1 ∉ cids.sort (· ≤ ·) := by
        intro hin
        have := hicid p.1 ((Finset.mem_sort _).mp hin)
        omega
      rw [contains_eq_false_of _ _ h2]
      rfl
    have hdrop : (newC.map Prod.fst).filter
        (fun k => !((cids.sort (· ≤ ·)).contains k)) = [] := by
      refine List.filter_eq_nil_iff.mpr ?_
      intro k hkm
      obtain ⟨p, hp, rfl⟩ := List.mem_map.mp hkm
      have hin : p.1 ∈ cids.sort (· ≤ ·) := (Finset.mem_sort _).mpr (hCm p hp)
      intro hcontra
      rw [contains_eq_true_of _ _ hin] at hcontra
      exact Bool.noConfusion hcontra
    rw [hkeep, hdrop, List.append_nil]
  · rw [hdeleq, hdf]
    have hmk : (st2.flows.filter
          (fun p => !(coveredB st2 (cids.sort (· ≤ ·)) p.1))).map Prod.fst =
        (st2.flows.map Prod.fst).filter
          (fun k => !(coveredB st2 (cids.sort (· ≤ ·)) k)) :=
      map_fst_filter_key st2.flows (fun k => !(coveredB st2 (cids.sort (· ≤ ·)) k))
    rw [hmk, hskel.2.1, hF, List.map_append, List.filter_append]
    have hkeep : (st.flows.map Prod.fst).filter
        (fun k => !(coveredB st2 (cids.sort (· ≤ ·)) k)) = st.flows.map Prod.fst := by
      refine List.filter_eq_self.mpr ?_
      intro k hkm
      obtain ⟨p, hp, rfl⟩ := List.mem_map.mp hkm
      rw [hcovF p.1 (hwf.1 p hp)]
      rfl
    have hdrop : (newF.map Prod.fst).filter
        (fun k => !(coveredB st2 (cids.sort (· ≤ ·)) k)) = [] := by
      refine List.filter_eq_nil_iff.mpr ?_
      intro k hkm
      obtain ⟨p, hp, rfl⟩ := List.mem_map.mp hkm
      intro hcontra
      rw [hcovT p.1 (hFm p hp)] at hcontra
      exact Bool.noConfusion hcontra
    rw [hkeep, hdrop, List.append_nil]
  · rw [hdeleq, hdq, hskel.1]
    refine QExtP_filter_restore _ hq0 ?_ ?_
    · intro p hp fi hfi
      rw [hcovF fi.1 (hwf.2.2 p hp fi hfi)]
      rfl
    · intro fi hfi
      rw [hcovT fi.1 hfi]
      rfl

/-- Claim C1 (amended): on every addClients call that returns admitted=false,
the service deletes every client it added in full: the client key list, the
flow key list, and the entire queue table (including each queue's flow wiring)
afterwards equal their pre-call values, for any well-formed starting state.
The pre-call state is NOT restored verbatim, as the original claim says: the
rejection cleanup re-marks the deleted clients' queues as affected, and shaper
curves, priorities and cached latencies that the latency check's
re-optimization rewrote on pre-existing flows are not rolled back. -/
theorem C1_reject_rollback (lp : LPOracle) (lat : LatOracle) (st : Engine)
    (req : List ClientReq) (ff : Bool) (hwf : EngineWF st)
    (hrej : (addClientsSvc lp lat st req ff).2.2 = false) :
    (addClientsSvc lp lat st req ff).1.clients.map Prod.fst =
      st.clients.map Prod.fst ∧
    (addClientsSvc lp lat st req ff).1.flows.map Prod.fst =
      st.flows.map Prod.fst ∧
    (addClientsSvc lp lat st req ff).1.queues = st.queues := by
  unfold addClientsSvc at hrej ⊢
  dsimp only at hrej ⊢
  by_cases hval : checkClientInfos st req ≠ AdmissionStatus.success
  · rw [if_pos hval]
    exact ⟨rfl, rfl, rfl⟩
  · rw [if_neg hval] at hrej ⊢
    by_cases hov : (ff && checkOverload st req) = true
    · rw [if_pos hov]
      exact ⟨rfl, rfl, rfl⟩
    · rw [if_neg hov] at hrej ⊢
      by_cases hao : req.all (fun cr => decide (cr.admitted = some true)) = true
      · rw [if_pos hao] at hrej
        exact Bool.noConfusion hrej
      · rw [if_neg hao] at hrej ⊢
        by_cases hlat :
            (checkLatency lp lat (addAllClients st req).1 (addAllClients st req).2).2 = true
        · rw [if_pos hlat] at hrej
          exact Bool.noConfusion hrej
        · rw [if_neg hlat]
          exact rollback_main lp lat st req hwf

/-- The latency oracle that reports an infinite latency bound for every flow,
as the DNC analysis does when the infeasible-LP fallback zeroes the shaper
curves. -/
def latC1 : LatOracle := fun _ _ => ⊤

def stC1 : Engine :=
  ⟨[(0, ⟨"Q", 1, [(0, 0)]⟩)],
   [(0, ⟨"FA", 0, [0], 0, 9995/10000, 1, 0⟩)],
   [(0, ⟨"A", 1, [0], 0⟩)], 1, 1, ∅⟩

def crD : ClientReq := ⟨"B", 1, none, none, [⟨"FB", ["Q"], [(0, 1, 1/10000)], 0⟩]⟩

set_option maxRecDepth 100000 in
/-- Counterexample to claim C1 as stated: a request rejected by the latency
check is deleted again (the client table returns to [0]), but the resulting
engine state does not equal the pre-call state: the rejection cleanup leaves
queue 0 marked affected, and the re-optimization triggered by the latency
check rewrote the pre-existing flow's shaper rate from 0.9995 to 0 (the
infeasible-LP fallback), which is not rolled back. -/
theorem C1_counterexample :
    (addClientsSvc lp0 latC1 stC1 [crD] false).2.2 = false ∧
    (addClientsSvc lp0 latC1 stC1 [crD] false).1.clients.map Prod.fst = [0] ∧
    (getFlowE (addClientsSvc lp0 latC1 stC1 [crD] false).1 0).shaperR = 0 ∧
    (getFlowE stC1 0).shaperR = 9995/10000 ∧
    (addClientsSvc lp0 latC1 stC1 [crD] false).1.affected = {0} ∧
    stC1.affected = ∅ ∧
    (addClientsSvc lp0 latC1 stC1 [crD] false).1 ≠ stC1 := by
  refine ⟨?_, ?_, ?_, ?_, ?_, rfl, ?_⟩
  · with_unfolding_all rfl
  · with_unfolding_all rfl
  · with_unfolding_all rfl
  · with_unfolding_all rfl
  · with_unfolding_all rfl
  · intro h
    have h2 := congrArg Engine.affected h
    have h3 : (addClientsSvc lp0 latC1 stC1 [crD] false).1.affected =
        ({0} : Finset ℕ) := by
      with_unfolding_all rfl
    rw [h3] at h2
    exact absurd h2 (by decide)

set_option maxRecDepth 100000 in
/-- Witness for claim C1 at a concrete engine: the request is rejected by the
latency check and the client key list, flow key list, and queue table are
restored. -/
theorem C1_reject_rollback_witness :
    (addClientsSvc lp0 latC1 stC1 [crD] false).2.2 = false ∧
    (addClientsSvc lp0 latC1 stC1 [crD] false).1.clients.map Prod.fst =
      stC1.clients.map Prod.fst ∧
    (addClientsSvc lp0 latC1 stC1 [crD] false).1.flows.map Prod.fst =
      stC1.flows.map Prod.fst ∧
    (addClientsSvc lp0 latC1 stC1 [crD] false).1.queues = stC1.queues := by
  have hwf : EngineWF stC1 := ⟨by decide, by decide, by decide⟩
  have hrej : (addClientsSvc lp0 latC1 stC1 [crD] false).2.2 = false := by
    with_unfolding_all rfl
  exact ⟨hrej, C1_reject_rollback lp0 latC1 stC1 [crD] false hwf hrej⟩

end WC
